import Mathlib

/-!
Verification development for the AI-Trip-planner repository.

The repository has two Python source files:
* `AItripplanner.py` — CrewAI-based planner: JSON normalization
  (`clean_json_output`, `ensure_dict`), a chroma vector store of user
  preferences (`log_user_query`, `get_user_preferences`), a pydantic schema
  (`Itinerary`/`DayPlan`/`Activity`/`AirlineOption`) and a markdown renderer
  inside `generate_itinerary`.
* `tripplanner.py` — a simpler variant with regex request parsing
  (`parse_input`) and a dispatcher (`generate_trip`).

Text is modelled as `List Char`.  Python's `json.loads` is modelled by an
executable fueled recursive-descent parser (`pstep`/`pyParse`) following the
strict JSON grammar that `json.loads` implements (including its default
acceptance of the `NaN`/`Infinity`/`-Infinity` literals).  Numeric values are
kept as their source tokens (`J.num`), since no claim depends on
floating-point value identity.  Objects are kept as ordered association
lists; no claim depends on Python dict key deduplication.
-/

/-- Characters treated as whitespace by Python's `json` module
(space, tab, newline, carriage return). -/
def isJsonWs (c : Char) : Bool :=
  c = ' ' || c = '\t' || c = '\n' || c = '\r'

/-- Skip leading JSON whitespace. -/
def skipWs (cs : List Char) : List Char :=
  cs.dropWhile isJsonWs

/-- Left brace character, written via its code point. -/
def lbrace : Char := Char.ofNat 123

/-- Right brace character, written via its code point. -/
def rbrace : Char := Char.ofNat 125

/-- Parsed JSON values.  Numbers keep their source token. -/
inductive J where
  | null : J
  | bool (b : Bool) : J
  | num (tok : List Char) : J
  | str (s : List Char) : J
  | arr (items : List J) : J
  | obj (fields : List (List Char × J)) : J

/-- Remainder of the input after a fixed literal, or `none` when the literal
is not a prefix (models the scanner's handling of `true`/`false`/`null` and
the `NaN`/`Infinity` constants). -/
def litRest : List Char → List Char → Option (List Char)
  | [], cs => some cs
  | _ :: _, [] => none
  | p :: ps, c :: cs => if c = p then litRest ps cs else none

/-- Hex digit value, if any. -/
def hexVal (c : Char) : Option Nat :=
  if '0' ≤ c ∧ c ≤ '9' then some (c.toNat - '0'.toNat)
  else if 'a' ≤ c ∧ c ≤ 'f' then some (c.toNat - 'a'.toNat + 10)
  else if 'A' ≤ c ∧ c ≤ 'F' then some (c.toNat - 'A'.toNat + 10)
  else none

/-- Decoded character for a single-character JSON escape, if valid. -/
def escDecode (e : Char) : Option Char :=
  if e = '"' then some '"'
  else if e = '\\' then some '\\'
  else if e = '/' then some '/'
  else if e = 'b' then some (Char.ofNat 8)
  else if e = 'f' then some (Char.ofNat 12)
  else if e = 'n' then some '\n'
  else if e = 'r' then some (Char.ofNat 13)
  else if e = 't' then some '\t'
  else none

/-- Four hex digits and the rest of the input, for a `\uXXXX` escape. -/
def hex4 : List Char → Option (Nat × List Char)
  | h1 :: h2 :: h3 :: h4 :: r =>
    match hexVal h1, hexVal h2, hexVal h3, hexVal h4 with
    | some a, some b, some c, some d => some ((((a * 16 + b) * 16 + c) * 16 + d), r)
    | _, _, _, _ => none
  | _ => none

/-- Fueled body of a JSON string after the opening quote: returns the
decoded content and the input after the closing quote.  Faithful to
`json.loads` strict mode: raw control characters are rejected, the escapes
for quote, backslash, slash, backspace, formfeed, newline, carriage
return, tab and `\uXXXX` are decoded.  (Surrogate-pair combination is not
modelled; no claim involves astral characters.)  Fuel `cs.length` always
suffices since every step consumes at least one character. -/
def strBodyF : Nat → List Char → Option (List Char × List Char)
  | 0, _ => none
  | Nat.succ f, cs =>
    match cs with
    | [] => none
    | c :: r =>
      if c = '"' then some ([], r)
      else if c = '\\' then
        match r with
        | [] => none
        | e :: r2 =>
          match escDecode e with
          | some d => (strBodyF f r2).map fun p => (d :: p.1, p.2)
          | none =>
            if e = 'u' then
              match hex4 r2 with
              | some (n, r3) => (strBodyF f r3).map fun p => (Char.ofNat n :: p.1, p.2)
              | none => none
            else none
      else if c.toNat < 32 then none
      else (strBodyF f r).map fun p => (c :: p.1, p.2)

/-- Body of a JSON string after the opening quote. -/
def strBody (cs : List Char) : Option (List Char × List Char) :=
  strBodyF cs.length cs

/-- Integer part of a JSON number token: `0` or a nonzero digit followed by
digits (the `(?:0|[1-9]\d*)` part of the scanner's regex). -/
def intPart : List Char → Option (List Char × List Char)
  | [] => none
  | '0' :: r => some (['0'], r)
  | c :: r =>
    if c.isDigit then some (c :: r.takeWhile Char.isDigit, r.dropWhile Char.isDigit)
    else none

/-- Fraction part `(\.\d+)?` of a JSON number token (possibly empty). -/
def fracPart (cs : List Char) : List Char × List Char :=
  match cs with
  | '.' :: c :: r =>
    if c.isDigit then
      ('.' :: c :: r.takeWhile Char.isDigit, r.dropWhile Char.isDigit)
    else ([], cs)
  | _ => ([], cs)

/-- Exponent part `([eE][-+]?\d+)?` of a JSON number token (possibly empty). -/
def expPart (cs : List Char) : List Char × List Char :=
  match cs with
  | e :: rest =>
    if e = 'e' ∨ e = 'E' then
      match rest with
      | s :: c :: r =>
        if (s = '+' ∨ s = '-') ∧ c.isDigit then
          (e :: s :: c :: r.takeWhile Char.isDigit, r.dropWhile Char.isDigit)
        else if s.isDigit then
          (e :: s :: rest.tail.takeWhile Char.isDigit, rest.tail.dropWhile Char.isDigit)
        else ([], cs)
      | [s] => if s.isDigit then (e :: [s], []) else ([], cs)
      | [] => ([], cs)
    else ([], cs)
  | [] => ([], cs)

/-- Unsigned part of a JSON number token: integer part, then optional
fraction and exponent parts. -/
def numTail (body : List Char) : Option (List Char × List Char) :=
  match intPart body with
  | none => none
  | some (ip, cs2) =>
    some (ip ++ (fracPart cs2).1 ++ (expPart (fracPart cs2).2).1,
      (expPart (fracPart cs2).2).2)

/-- A full JSON number token (`NUMBER_RE` of the `json` module), returned
verbatim together with the rest of the input. -/
def numToken (cs : List Char) : Option (List Char × List Char) :=
  match cs with
  | '-' :: r => (numTail r).map fun p => ('-' :: p.1, p.2)
  | _ => numTail cs

/-- Parser modes: a value, array items (just after `[`, or expecting an
item), object members (just after the opening brace, or expecting a
member). -/
inductive PMode where
  | val : PMode
  | items0 : PMode
  | itemsN (acc : List J) : PMode
  | members0 : PMode
  | membersN (acc : List (List Char × J)) : PMode

/-- One fueled step of the recursive-descent JSON parser.  The input is
expected to start at a non-whitespace position; whitespace inside arrays
and objects is skipped at the same points `json.loads` skips it.  Fuel only
bounds recursion depth; `pyParse` supplies enough fuel for any input. -/
def pstep : Nat → PMode → List Char → Option (J × List Char)
  | 0, _, _ => none
  | Nat.succ f, PMode.val, cs =>
    match cs with
    | [] => none
    | c :: t =>
      if c = lbrace then pstep f PMode.members0 (skipWs t)
      else if c = '[' then pstep f PMode.items0 (skipWs t)
      else if c = '"' then (strBody t).map fun p => (J.str p.1, p.2)
      else if c = 't' then (litRest ['r', 'u', 'e'] t).map fun r => (J.bool true, r)
      else if c = 'f' then (litRest ['a', 'l', 's', 'e'] t).map fun r => (J.bool false, r)
      else if c = 'n' then (litRest ['u', 'l', 'l'] t).map fun r => (J.null, r)
      else if c = 'N' then (litRest ['a', 'N'] t).map fun r => (J.num ['N', 'a', 'N'], r)
      else if c = 'I' then
        (litRest ['n', 'f', 'i', 'n', 'i', 't', 'y'] t).map
          fun r => (J.num ['I', 'n', 'f', 'i', 'n', 'i', 't', 'y'], r)
      else if c = '-' then
        match litRest ['I', 'n', 'f', 'i', 'n', 'i', 't', 'y'] t with
        | some r => some (J.num ['-', 'I', 'n', 'f', 'i', 'n', 'i', 't', 'y'], r)
        | none => (numToken cs).map fun p => (J.num p.1, p.2)
      else if c.isDigit then (numToken cs).map fun p => (J.num p.1, p.2)
      else none
  | Nat.succ f, PMode.items0, cs =>
    match cs with
    | ']' :: r => some (J.arr [], r)
    | _ => pstep f (PMode.itemsN []) cs
  | Nat.succ f, PMode.itemsN acc, cs =>
    match pstep f PMode.val cs with
    | none => none
    | some (v, r) =>
      match skipWs r with
      | ',' :: r2 => pstep f (PMode.itemsN (acc ++ [v])) (skipWs r2)
      | ']' :: r2 => some (J.arr (acc ++ [v]), r2)
      | _ => none
  | Nat.succ f, PMode.members0, cs =>
    match cs with
    | [] => none
    | c :: r =>
      if c = rbrace then some (J.obj [], r)
      else pstep f (PMode.membersN []) (c :: r)
  | Nat.succ f, PMode.membersN acc, cs =>
    match cs with
    | '"' :: r =>
      match strBody r with
      | none => none
      | some (k, r2) =>
        match skipWs r2 with
        | ':' :: r3 =>
          match pstep f PMode.val (skipWs r3) with
          | none => none
          | some (v, r4) =>
            match skipWs r4 with
            | ',' :: r5 => pstep f (PMode.membersN (acc ++ [(k, v)])) (skipWs r5)
            | c2 :: r5 =>
              if c2 = rbrace then some (J.obj (acc ++ [(k, v)]), r5) else none
            | [] => none
        | _ => none
    | _ => none

/-- Number of non-whitespace characters; used as a fuel measure that is
invariant under whitespace padding and stripping. -/
def nonwsCount (cs : List Char) : Nat :=
  (cs.filter fun c => !(isJsonWs c)).length

/-- Model of `json.loads` on text: parse one value surrounded by optional
whitespace; anything left over (`Extra data`) makes the parse fail, exactly
as `json.loads` raises `JSONDecodeError`.  The fuel `2 * nonwsCount cs + 2`
is always sufficient: the parser consumes at least one non-whitespace
character for every two fuel units spent along any recursion path. -/
def pyParse (cs : List Char) : Option J :=
  match pstep (2 * nonwsCount cs + 2) PMode.val (skipWs cs) with
  | some (v, r) => if skipWs r = [] then some v else none
  | none => none

/-- Python whitespace for `str.strip` restricted to the characters relevant
here; the strings this program strips only ever carry ASCII whitespace, for
which `str.strip` and this model agree. -/
def rstripWs (cs : List Char) : List Char :=
  (skipWs cs.reverse).reverse

/-- Model of Python `s.strip()`. -/
def pyStrip (cs : List Char) : List Char :=
  rstripWs (skipWs cs)

/-- Does `p` occur as a contiguous substring of `cs`? -/
def occursG (p : List Char) : List Char → Bool
  | [] => p.isPrefixOf []
  | c :: t => p.isPrefixOf (c :: t) || occursG p t

/-- Fueled worker for Python `s.replace(p, "")`: scan left to right, remove
each non-overlapping occurrence of `p`.  The fuel is just a termination
device; `removeAll` supplies `cs.length`, which is always enough because
every step consumes at least one character (for the nonempty patterns used
here). -/
def replF (p : List Char) : Nat → List Char → List Char
  | 0, cs => cs
  | Nat.succ f, cs =>
    if p.isPrefixOf cs then replF p f (cs.drop p.length)
    else
      match cs with
      | [] => []
      | c :: t => c :: replF p f t

/-- Model of Python `cs.replace(p, "")` for nonempty `p`. -/
def removeAll (p cs : List Char) : List Char :=
  replF p cs.length cs

/-- The bare code-fence marker: three backticks. -/
def fence3 : List Char := ['`', '`', '`']

/-- The opening code-fence marker with language tag, three backticks
followed by `json`. -/
def fenceJson : List Char := ['`', '`', '`', 'j', 's', 'o', 'n']

/-- Removal of a single trailing three-backtick marker, if present. -/
def removeSuffix3 (l : List Char) : List Char :=
  if fence3.isPrefixOf l.reverse then (l.reverse.drop 3).reverse else l

/-- The effect of the multiline regex substitution on one line (a
newline-free segment): remove one leading three-backtick-`json` marker,
then one trailing three-backtick marker. -/
def lineClean (l : List Char) : List Char :=
  removeSuffix3 (if fenceJson.isPrefixOf l then l.drop 7 else l)

/-- Model of `clean_json_output` (`AItripplanner.py` lines 83-84):
`output.strip().replace("```json", "").replace("```", "")`. -/
def clean_json_output (cs : List Char) : List Char :=
  removeAll fence3 (removeAll fenceJson (pyStrip cs))

/-- Fueled worker modelling
`re.sub(r"^```json|```$", "", text, flags=re.MULTILINE)`:
a left-to-right scan which tracks whether the current position is a line
start; at each position the alternation first tries `^```json` (only at a
line start) and then ` ```$ ` (only when the three backticks are followed
by a newline or the end of the text); after a match the scan resumes after
the matched text.  Fuel `cs.length` is always enough since every step
consumes at least one character. -/
def rsubF : Nat → Bool → List Char → List Char
  | 0, _, cs => cs
  | Nat.succ f, atLS, cs =>
    if atLS && fenceJson.isPrefixOf cs then rsubF f false (cs.drop 7)
    else if fence3.isPrefixOf cs &&
        ((cs.drop 3).isEmpty || (cs.drop 3).head? = some '\n') then
      rsubF f false (cs.drop 3)
    else
      match cs with
      | [] => []
      | c :: t => c :: rsubF f (c = '\n') t

/-- The multiline regex substitution used by `ensure_dict`. -/
def rsubFence (cs : List Char) : List Char :=
  rsubF cs.length true cs

/-- Model of `ensure_dict` (`AItripplanner.py` lines 73-81) on string input:
try `json.loads`; on failure apply the multiline fence-marker substitution
to the stripped text, strip again, and retry `json.loads`; a second failure
raises `JSONDecodeError`, modelled as `none`.  (Non-string inputs are
returned unchanged by the source and are outside this model.) -/
def ensure_dict (cs : List Char) : Option J :=
  match pyParse cs with
  | some v => some v
  | none => pyParse (pyStrip (rsubFence (pyStrip cs)))

/-- Modelled from the spec: the normalizer as §4.3 and claim C2 describe
it — attempt a strict parse; otherwise remove only a single leading
code-fence marker (three backticks plus `json`, or a bare three-backtick
marker) and a single trailing three-backtick marker from the (stripped)
text as substrings at its very ends, and
retry the strict parse; fail otherwise.  This is the reference against
which the source's `re.sub`-based `ensure_dict` is compared. -/
def ensureDictSpec (cs : List Char) : Option J :=
  match pyParse cs with
  | some v => some v
  | none =>
    let t := pyStrip cs
    let t1 :=
      if fenceJson.isPrefixOf t then t.drop 7
      else if fence3.isPrefixOf t then t.drop 3
      else t
    pyParse (pyStrip (removeSuffix3 t1))

/-- All characters of a list are JSON whitespace. -/
def allWs (cs : List Char) : Bool := cs.all isJsonWs

/-- A well-formed JSON text wrapped in code-fence markers on their own
lines, as the spec describes model outputs fenced conventionally. -/
def wrapFence (j : List Char) : List Char :=
  fenceJson ++ '\n' :: j ++ '\n' :: fence3

/-- Split a text into its lines at each newline (the segments between
newlines, without them); a text with n newlines yields n+1 segments. -/
def splitNl : List Char → List (List Char)
  | [] => [[]]
  | c :: t =>
    if c = '\n' then [] :: splitNl t
    else
      match splitNl t with
      | [] => [[c]]
      | l :: ls => (c :: l) :: ls

/-- Rejoin lines with newlines; left inverse of `splitNl`. -/
def joinNl : List (List Char) → List Char
  | [] => []
  | [l] => l
  | l :: ls => l ++ '\n' :: joinNl ls

-- ==== Preference store (AItripplanner.py lines 87-109) ====
-- The chroma collection is modelled as a list of entries in insertion
-- order; the sentence-transformer embedder and Python interpreter string
-- hash are opaque, so every store operation is parametric in an arbitrary
-- embedding function `embF` and hash function `hashF` (fixed for the
-- process run being modelled).

/-- One record of the `user_preferences` chroma collection: id, embedding,
document text, and the metadata fields written by `log_user_query`. -/
structure PrefEntry where
  eid : List Char
  emb : List Int
  doc : List Char
  user : List Char
  structured_output : Option (List Char)

/-- Decimal digits of a natural number (fueled helper; fuel `n + 1`
always suffices). -/
def natDigits : Nat → Nat → List Char
  | 0, _ => []
  | Nat.succ _, 0 => ['0']
  | Nat.succ f, Nat.succ n =>
    if n + 1 < 10 then [Char.ofNat (48 + (n + 1))]
    else natDigits f ((n + 1) / 10) ++ [Char.ofNat (48 + (n + 1) % 10)]

/-- Python `str` of a nonnegative integer. -/
def natStr (n : Nat) : List Char := natDigits (n + 1) n

/-- Python `str` of an integer, as an f-string renders `hash(query)`. -/
def intStr : Int → List Char
  | Int.ofNat n => natStr n
  | Int.negSucc n => '-' :: natStr (n + 1)

/-- The chroma id `f"{user_id}_{hash(query)}"` built by `log_user_query`. -/
def mkId (hashF : List Char → Int) (user q : List Char) : List Char :=
  user ++ '_' :: intStr (hashF q)

/-- The metadata `structured_output` slot: `log_user_query` stores it only
under `if structured_output:`, so a `None` or empty string is dropped
(Python truthiness). -/
def mkMeta : Option (List Char) → Option (List Char)
  | none => none
  | some s => if s = [] then none else some s

/-- Model of `log_user_query` (`AItripplanner.py` lines 87-97): embed the
query and `collection.add` one entry with id `f"{user_id}_{hash(query)}"`.
The `collection.add` of chromadb skips an id that already exists in the
collection (it warns and inserts nothing, mutating no existing entry), so a
repeated (user, query) pair within one process run is a no-op. -/
def log_user_query (embF : List Char → List Int) (hashF : List Char → Int)
    (store : List PrefEntry) (user q : List Char)
    (structured_output : Option (List Char)) : List PrefEntry :=
  if store.any (fun e => e.eid == mkId hashF user q) then store
  else
    store ++ [{ eid := mkId hashF user q, emb := embF q, doc := q,
                user := user, structured_output := mkMeta structured_output }]

/-- Sum of squares of the leftover coordinates. -/
def sumSq : List Int → Int
  | [] => 0
  | y :: ys => y * y + sumSq ys

/-- Squared L2 distance between embedding vectors (chroma ranks query
results by L2 distance; squaring preserves the ranking). -/
def sqDist : List Int → List Int → Int
  | [], w => sumSq w
  | x :: xs, [] => x * x + sqDist xs []
  | x :: xs, y :: ys => (x - y) * (x - y) + sqDist xs ys

/-- Insert an entry into a distance-sorted list, after any entry at the
same distance: with `sortByDist` this is a stable nearest-first ordering,
ties broken by insertion order (the tie order chroma leaves unspecified is
modelled as insertion order). -/
def insertByDist (d : PrefEntry → Int) (e : PrefEntry) :
    List PrefEntry → List PrefEntry
  | [] => [e]
  | x :: xs => if d e < d x then e :: x :: xs else x :: insertByDist d e xs

/-- Stable sort of the store by distance, nearest first. -/
def sortByDist (d : PrefEntry → Int) (l : List PrefEntry) : List PrefEntry :=
  l.foldl (fun acc e => insertByDist d e acc) []

/-- Model of `collection.query(query_embeddings=[emb], n_results=k,
where=...)` followed by `["documents"][0]`: the documents of the `k`
nearest entries whose `user_id` metadata equals `user`. -/
def chromaQueryDocs (embF : List Char → List Int) (store : List PrefEntry)
    (q : List Char) (k : Nat) (user : List Char) : List (List Char) :=
  ((sortByDist (fun e => sqDist e.emb (embF q))
      (store.filter (fun e => e.user == user))).take k).map (fun e => e.doc)

/-- Join document texts with a separator, as `sep.join(docs)`. -/
def joinSep (sep : List Char) : List (List Char) → List Char
  | [] => []
  | [d] => d
  | d :: ds => d ++ sep ++ joinSep sep ds

/-- The `" | "` separator of `get_user_preferences`. -/
def sepBar : List Char := [' ', '|', ' ']

/-- The no-history sentinel of `get_user_preferences`. -/
def sentinel : List Char := "No past preferences found.".toList

/-- Model of `get_user_preferences` (`AItripplanner.py` lines 100-109).
`collection.query` returns `results["documents"]` as a list holding one
inner list (one per query embedding), so the modelled value `documents`
below is the singleton `[inner]`; the source tests `if results["documents"]:`
— the truthiness of that outer list — and only its `[]` case reaches the
sentinel, mirrored here by the match. -/
def get_user_preferences (embF : List Char → List Int)
    (store : List PrefEntry) (user q : List Char) (k : Nat) : List Char :=
  let documents : List (List (List Char)) := [chromaQueryDocs embF store q k user]
  match documents with
  | [] => sentinel
  | docs0 :: _ => joinSep sepBar docs0

-- ==== Pydantic schema validation (AItripplanner.py lines 27-53, 205) ====

/-- `Activity` (`AItripplanner.py` lines 27-35); string payloads kept as
character lists, `rating: Optional[float]` kept as the source numeral
token of the JSON number. -/
structure Activity where
  name : List Char
  location : List Char
  description : List Char
  date : List Char
  cuisine : Option (List Char)
  why_its_suitable : List Char
  reviews : Option (List (List Char))
  rating : Option (List Char)

/-- `AirlineOption` (`AItripplanner.py` lines 37-42). -/
structure AirlineOption where
  airline : List Char
  flight_number : List Char
  departure : List Char
  arrival : List Char
  price : List Char

/-- `DayPlan` (`AItripplanner.py` lines 44-48); the conlist minimum
lengths are enforced by the validator `vDayPlan`. -/
structure DayPlan where
  date : List Char
  activities : List Activity
  restaurants : List (List Char)
  flight : Option (List AirlineOption)

/-- `Itinerary` (`AItripplanner.py` lines 50-53). -/
structure Itinerary where
  name : List Char
  day_plans : List DayPlan
  hotel : List Char

/-- Last value under a key in a parsed object: `json.loads` builds a dict,
so a repeated key keeps its last occurrence. -/
def jLookup (key : List Char) : List (List Char × J) → Option J
  | [] => none
  | (k, v) :: t =>
    match jLookup key t with
    | some r => some r
    | none => if k == key then some v else none

/-- A JSON value as a `str` field (pydantic accepts only a string here). -/
def asStr : J → Option (List Char)
  | J.str s => some s
  | _ => none

/-- Validate each element of a JSON list, failing if any element fails. -/
def vList {α : Type} (v : J → Option α) : List J → Option (List α)
  | [] => some []
  | j :: t =>
    match v j, vList v t with
    | some a, some r => some (a :: r)
    | _, _ => none

/-- A required `str` field of a pydantic model. -/
def reqStr (key : List Char) (l : List (List Char × J)) : Option (List Char) :=
  match jLookup key l with
  | some (J.str s) => some s
  | _ => none

/-- An `Optional[str] = None` field: missing or `null` defaults to `None`. -/
def optStr (key : List Char) (l : List (List Char × J)) :
    Option (Option (List Char)) :=
  match jLookup key l with
  | none => some none
  | some J.null => some none
  | some (J.str s) => some (some s)
  | some _ => none

/-- An `Optional[List[str]] = None` field. -/
def optStrList (key : List Char) (l : List (List Char × J)) :
    Option (Option (List (List Char))) :=
  match jLookup key l with
  | none => some none
  | some J.null => some none
  | some (J.arr a) => (vList asStr a).map some
  | some _ => none

/-- An `Optional[float] = None` field: missing or `null` defaults to
`None`, a JSON number is kept as its numeral token (pydantic coercion of
numeric strings is not modelled; the model outputs plain numbers here). -/
def optNum (key : List Char) (l : List (List Char × J)) :
    Option (Option (List Char)) :=
  match jLookup key l with
  | none => some none
  | some J.null => some none
  | some (J.num t) => some (some t)
  | some _ => none

/-- Pydantic validation of one `Activity` from a JSON value: required
string fields, optional fields defaulting to `None`, extra keys ignored. -/
def vActivity (j : J) : Option Activity :=
  match j with
  | J.obj l =>
    match reqStr ("name".toList) l, reqStr ("location".toList) l,
        reqStr ("description".toList) l, reqStr ("date".toList) l,
        optStr ("cuisine".toList) l, reqStr ("why_its_suitable".toList) l,
        optStrList ("reviews".toList) l, optNum ("rating".toList) l with
    | some n, some lo, some de, some da, some cu, some wh, some rv, some ra =>
      some { name := n, location := lo, description := de, date := da,
             cuisine := cu, why_its_suitable := wh, reviews := rv, rating := ra }
    | _, _, _, _, _, _, _, _ => none
  | _ => none

/-- Pydantic validation of one `AirlineOption`. -/
def vAirline (j : J) : Option AirlineOption :=
  match j with
  | J.obj l =>
    match reqStr ("airline".toList) l, reqStr ("flight_number".toList) l,
        reqStr ("departure".toList) l, reqStr ("arrival".toList) l,
        reqStr ("price".toList) l with
    | some a, some fno, some dep, some arr, some pr =>
      some { airline := a, flight_number := fno, departure := dep,
             arrival := arr, price := pr }
    | _, _, _, _, _ => none
  | _ => none

/-- Pydantic validation of one `DayPlan`: `activities` and `restaurants`
are `conlist(..., min_length=1)` and reject empty lists; `flight` is
`Optional[List[AirlineOption]] = None` (an empty flight list is accepted). -/
def vDayPlan (j : J) : Option DayPlan :=
  match j with
  | J.obj l =>
    match reqStr ("date".toList) l, jLookup ("activities".toList) l,
        jLookup ("restaurants".toList) l with
    | some da, some (J.arr aj), some (J.arr rj) =>
      match vList vActivity aj, vList asStr rj with
      | some acts, some rests =>
        if acts.length = 0 then none
        else if rests.length = 0 then none
        else
          match jLookup ("flight".toList) l with
          | none => some { date := da, activities := acts,
                           restaurants := rests, flight := none }
          | some J.null => some { date := da, activities := acts,
                                  restaurants := rests, flight := none }
          | some (J.arr fj) =>
            match vList vAirline fj with
            | some fls => some { date := da, activities := acts,
                                 restaurants := rests, flight := some fls }
            | none => none
          | some _ => none
      | _, _ => none
    | _, _, _ => none
  | _ => none

/-- Model of `Itinerary(**result_dict)` (`AItripplanner.py` line 205):
keyword expansion requires a dict, pydantic requires `name`/`hotel`
strings and a `day_plans` list of valid day plans (no minimum length);
`none` models the raised `TypeError`/`ValidationError`. -/
def vItinerary (j : J) : Option Itinerary :=
  match j with
  | J.obj l =>
    match reqStr ("name".toList) l, jLookup ("day_plans".toList) l,
        reqStr ("hotel".toList) l with
    | some n, some (J.arr dj), some h =>
      match vList vDayPlan dj with
      | some ds => some { name := n, day_plans := ds, hotel := h }
      | none => none
    | _, _, _ => none
  | _ => none

-- ==== json.dumps (for the structured_output metadata) ====

/-- The hex digit characters of `json.dumps` escapes. -/
def hexDigit (n : Nat) : Char :=
  if n < 10 then Char.ofNat (48 + n) else Char.ofNat (87 + n)

/-- One character as `json.dumps` emits it inside a string (ASCII escapes;
`ensure_ascii` escaping of non-ASCII characters is not modelled). -/
def jEscChar (c : Char) : List Char :=
  if c = '"' then ['\\', '"']
  else if c = '\\' then ['\\', '\\']
  else if c = '\n' then ['\\', 'n']
  else if c = '\t' then ['\\', 't']
  else if c = '\r' then ['\\', 'r']
  else if c = Char.ofNat 8 then ['\\', 'b']
  else if c = Char.ofNat 12 then ['\\', 'f']
  else if c.toNat < 32 then
    ['\\', 'u', '0', '0', hexDigit (c.toNat / 16), hexDigit (c.toNat % 16)]
  else [c]

/-- A JSON string literal as `json.dumps` emits it. -/
def jStrDump (s : List Char) : List Char :=
  '"' :: s.foldr (fun c acc => jEscChar c ++ acc) ['"']

/-- Fueled model of `json.dumps` with its default separators; numbers are
emitted as their source numeral token (Python float repr is not modelled).
The fuel only bounds nesting depth; callers pass the length of the text
the value was parsed from, which always exceeds its depth. -/
def jdumpF : Nat → J → List Char
  | _, J.null => "null".toList
  | _, J.bool true => "true".toList
  | _, J.bool false => "false".toList
  | _, J.num t => t
  | _, J.str s => jStrDump s
  | 0, J.arr _ => []
  | Nat.succ f, J.arr l =>
    '[' :: (joinSep (", ".toList) (l.map (jdumpF f)) ++ [']'])
  | 0, J.obj _ => []
  | Nat.succ f, J.obj l =>
    lbrace :: (joinSep (", ".toList)
      (l.map (fun kv => jStrDump kv.1 ++ (": ".toList) ++ jdumpF f kv.2)) ++ [rbrace])

-- ==== Renderer and pipeline (AItripplanner.py lines 176-228) ====

/-- The query text f-string of `generate_itinerary` (line 177). -/
def queryText (origin destination trip_duration start_date
    user_preferences : List Char) : List Char :=
  origin ++ " to ".toList ++ destination ++ ", ".toList ++ trip_duration
    ++ " starting ".toList ++ start_date ++ ", prefs=".toList ++ user_preferences

/-- `{act.rating}` in the activity f-string: `None` prints as `None`, a
number as its numeral token (Python float repr is not modelled). -/
def showRating : Option (List Char) → List Char
  | none => "None".toList
  | some tok => tok

/-- One flight line of the rendered markdown (line 217). -/
def renderAirline (f : AirlineOption) : List Char :=
  "- ".toList ++ f.airline ++ " ".toList ++ f.flight_number ++ " | ".toList
    ++ f.departure ++ " → ".toList ++ f.arrival ++ " | ".toList
    ++ f.price ++ "\n".toList

/-- One activity line of the rendered markdown (line 220). -/
def renderActivity (a : Activity) : List Char :=
  "- ".toList ++ a.name ++ " (".toList ++ a.location ++ ") ⭐ ".toList
    ++ showRating a.rating ++ "\n  ".toList ++ a.description ++ "\n".toList

/-- One day of the rendered markdown (lines 213-224): the flight block is
guarded by `if day.flight:`, so `None` and an empty list both print
nothing (Python truthiness). -/
def renderDay (d : DayPlan) : List Char :=
  "#### 📅 ".toList ++ d.date ++ "\n".toList
    ++ (match d.flight with
        | none => []
        | some [] => []
        | some fs =>
          "**✈️ Flight Options:**\n".toList
            ++ fs.foldr (fun f acc => renderAirline f ++ acc) [])
    ++ "\n**Activities:**\n".toList
    ++ d.activities.foldr (fun a acc => renderActivity a ++ acc) []
    ++ "\n**Restaurants:**\n".toList
    ++ d.restaurants.foldr (fun r acc => "- ".toList ++ r ++ "\n".toList ++ acc) []
    ++ "\n---\n".toList

/-- The markdown rendering of a validated itinerary (lines 211-225): a
pure function of the `Itinerary` value alone. -/
def renderIt (it : Itinerary) : List Char :=
  "### ✈️ ".toList ++ it.name ++ "\n\n**Hotel:** ".toList ++ it.hotel
    ++ "\n\n".toList
    ++ it.day_plans.foldr (fun d acc => renderDay d ++ acc) []

/-- The error f-string of the outermost `except` (line 228); `msg` stands
for `str(e)`. -/
def errOut (msg : List Char) : List Char :=
  "⚠️ Could not generate itinerary. Error: ".toList ++ msg

/-- Model of `generate_itinerary` (`AItripplanner.py` lines 176-228) from
the point the upstream call returned raw text: the crew invocation and the
`raw_output` extraction are abstracted into the `modelOut` argument, and
the exception messages `str(e)` of the JSON decode and pydantic validation
errors into `parseMsg`/`valMsg`. Returns the displayed text and the store
after the run (preference recall happens before the `try`; logging happens
after validation, so every failure leaves the store unchanged). -/
def generate_itinerary (embF : List Char → List Int) (hashF : List Char → Int)
    (parseMsg valMsg : List Char) (store : List PrefEntry)
    (user_id origin destination trip_duration start_date
      user_preferences : List Char)
    (modelOut : List Char) : List Char × List PrefEntry :=
  let qt := queryText origin destination trip_duration start_date user_preferences
  let cleaned := clean_json_output modelOut
  match ensure_dict cleaned with
  | none => (errOut parseMsg, store)
  | some d =>
    match vItinerary d with
    | none => (errOut valMsg, store)
    | some it =>
      let store2 := log_user_query embF hashF store user_id qt
        (some (jdumpF cleaned.length d))
      (renderIt it, store2)

-- ==== tripplanner.py ====

/-- An ASCII word character of the regex `\w` (Unicode word characters do
not occur in the inputs considered here and are not modelled). -/
def isWordB (c : Char) : Bool := c.isAlphanum || c == '_'

/-- `int()` of a digit string. -/
def natOfDigits (ds : List Char) : Nat :=
  ds.foldl (fun a c => 10 * a + (c.toNat - 48)) 0

/-- Model of `re.match(r"plan (\d+)-day trip to (\w+)", s)`: anchored at
the start only, trailing text allowed; each greedy run is exact because
backtracking it cannot help (a shorter digit run faces another digit where
`-` is required, a shorter word run faces a word character where nothing
more is required). Returns `int(group(1))` and `group(2)`. -/
def match_trip (cs : List Char) : Option (Nat × List Char) :=
  match litRest ("plan ".toList) cs with
  | none => none
  | some r1 =>
    let ds := r1.takeWhile Char.isDigit
    if ds = [] then none
    else
      match litRest ("-day trip to ".toList) (r1.drop ds.length) with
      | none => none
      | some r2 =>
        let w := r2.takeWhile isWordB
        if w = [] then none else some (natOfDigits ds, w)

/-- One `(\w+ \d{1,2})` group: a word run, a space, then up to two digits
(`\d{1,2}` takes two when available; taking one instead never helps,
because the following character would be the second digit where a literal
space or nothing is required). Returns the word, the day value, and the
rest of the input. -/
def matchMonthDay (cs : List Char) : Option (List Char × Nat × List Char) :=
  let w := cs.takeWhile isWordB
  if w = [] then none
  else
    match litRest (" ".toList) (cs.drop w.length) with
    | none => none
    | some r1 =>
      let ds := (r1.takeWhile Char.isDigit).take 2
      if ds = [] then none
      else some (w, natOfDigits ds, r1.drop ds.length)

/-- Model of `re.match(r"plan (\w+) trip from (\w+ \d{1,2}) to (\w+ \d{1,2})", s)`:
returns `group(1)` and the month-word/day pair of each date group. -/
def match_dates (cs : List Char) :
    Option (List Char × (List Char × Nat) × (List Char × Nat)) :=
  match litRest ("plan ".toList) cs with
  | none => none
  | some r1 =>
    let w1 := r1.takeWhile isWordB
    if w1 = [] then none
    else
      match litRest (" trip from ".toList) (r1.drop w1.length) with
      | none => none
      | some r2 =>
        match matchMonthDay r2 with
        | none => none
        | some (w2, d2, r3) =>
          match litRest (" to ".toList) r3 with
          | none => none
          | some r4 =>
            match matchMonthDay r4 with
            | none => none
            | some (w3, d3, _) => some (w1, (w2, d2), (w3, d3))

/-- ASCII lowercasing, for the case-insensitive `%B` month match. -/
def lowerAscii (c : Char) : Char :=
  if decide ('A' ≤ c) && decide (c ≤ 'Z') then Char.ofNat (c.toNat + 32) else c

/-- The month number of a full English month name, case-insensitively, as
`strptime`'s `%B` matches it. -/
def monthNum (w : List Char) : Option Nat :=
  let lw := w.map lowerAscii
  if lw = "january".toList then some 1
  else if lw = "february".toList then some 2
  else if lw = "march".toList then some 3
  else if lw = "april".toList then some 4
  else if lw = "may".toList then some 5
  else if lw = "june".toList then some 6
  else if lw = "july".toList then some 7
  else if lw = "august".toList then some 8
  else if lw = "september".toList then some 9
  else if lw = "october".toList then some 10
  else if lw = "november".toList then some 11
  else if lw = "december".toList then some 12
  else none

/-- Days of each month in `strptime`'s default year 1900 (not a leap
year). -/
def daysInMonth : Nat → Nat
  | 2 => 28
  | 4 => 30
  | 6 => 30
  | 9 => 30
  | 11 => 30
  | _ => 31

/-- Model of `datetime.strptime(text, "%B %d")` on a month word and day
value: an unknown month name or an out-of-range day raises `ValueError`,
modelled as `Except.error` with a fixed stand-in message. -/
def strptimeBD (w : List Char) (d : Nat) : Except (List Char) (Nat × Nat) :=
  match monthNum w with
  | none => Except.error ("time data does not match format".toList)
  | some m =>
    if 1 ≤ d ∧ d ≤ daysInMonth m then Except.ok (m, d)
    else Except.error ("day is out of range for month".toList)

/-- The outcome of `parse_input` (`tripplanner.py` lines 11-31). -/
inductive ParseRes where
  | trip_days (days : Nat) (dest : List Char)
  | trip_dates (dest : List Char) (s e : Nat × Nat)
  | nomatch

/-- Model of `parse_input`: try the day-count pattern, then the date-range
pattern (whose `strptime` calls can raise, propagated as `Except.error`),
else `(None, None, None)`, modelled as `nomatch`. -/
def parse_input (cs : List Char) : Except (List Char) ParseRes :=
  match match_trip cs with
  | some (days, dest) => Except.ok (ParseRes.trip_days days dest)
  | none =>
    match match_dates cs with
    | none => Except.ok ParseRes.nomatch
    | some (dest, g2, g3) =>
      match strptimeBD g2.1 g2.2 with
      | Except.error m => Except.error m
      | Except.ok s =>
        match strptimeBD g3.1 g3.2 with
        | Except.error m => Except.error m
        | Except.ok e => Except.ok (ParseRes.trip_dates dest s e)

/-- Days in 1900 before month `m`, for date subtraction. -/
def cumDays : Nat → Nat
  | 1 => 0
  | 2 => 31
  | 3 => 59
  | 4 => 90
  | 5 => 120
  | 6 => 151
  | 7 => 181
  | 8 => 212
  | 9 => 243
  | 10 => 273
  | 11 => 304
  | _ => 334

/-- The ordinal of a 1900 date, so that `(end - start).days` is the
difference of ordinals. -/
def toOrd (md : Nat × Nat) : Int := (cumDays md.1 : Int) + md.2

/-- Full month name as `strftime("%B")` prints it. -/
def monthName (m : Nat) : List Char :=
  (match m with
   | 1 => "January"
   | 2 => "February"
   | 3 => "March"
   | 4 => "April"
   | 5 => "May"
   | 6 => "June"
   | 7 => "July"
   | 8 => "August"
   | 9 => "September"
   | 10 => "October"
   | 11 => "November"
   | _ => "December").toList

/-- Zero-padded day as `strftime("%d")` prints it. -/
def pad2 (d : Nat) : List Char := if d < 10 then '0' :: natStr d else natStr d

/-- A date as `strftime("%B %d")` prints it. -/
def fmtBD (md : Nat × Nat) : List Char := monthName md.1 ++ ' ' :: pad2 md.2

/-- The prompt f-string of `tripplanner.generate_itinerary` (lines 35-38). -/
def tpPrompt (destination : List Char) (days : Int)
    (dates : Option ((Nat × Nat) × (Nat × Nat))) : List Char :=
  let base := "Create a detailed ".toList ++ intStr days
    ++ "-day itinerary for a trip to ".toList ++ destination
    ++ (". Include popular tourist spots, activities, recommended restaurants for both lunch and dinner, and any local holiday events that may be happening during the trip.".toList)
  match dates with
  | none => base
  | some (s, e) =>
    base ++ " The trip is from ".toList ++ fmtBD s ++ " to ".toList
      ++ fmtBD e ++ ".".toList

/-- Model of `tripplanner.generate_itinerary` (lines 34-54): builds the
prompt and invokes the model; the `openai` call together with its
`try`/`except` wrapper (which turns an exception into an
`"Error generating itinerary: ..."` string) is abstracted into the
`model` function, which always returns a text. -/
def tp_generate_itinerary (model : List Char → List Char)
    (destination : List Char) (days : Int)
    (dates : Option ((Nat × Nat) × (Nat × Nat))) : List Char :=
  model (tpPrompt destination days dates)

/-- The fixed fallback reply of `generate_trip` (with its apostrophe,
written as `Char.ofNat 39`). -/
def sorryStr : List Char :=
  "Sorry, I couldn".toList ++ Char.ofNat 39 :: "t understand your request.".toList

/-- Model of `generate_trip` (`tripplanner.py` lines 57-67): dispatch on
`parse_input`; the `else` branch returns the fixed fallback string without
calling `generate_itinerary`. A `ValueError` escaping `parse_input`
propagates (`Except.error`). -/
def generate_trip (model : List Char → List Char) (cs : List Char) :
    Except (List Char) (List Char) :=
  match parse_input cs with
  | Except.error m => Except.error m
  | Except.ok (ParseRes.trip_days days dest) =>
    Except.ok (tp_generate_itinerary model dest (Int.ofNat days) none)
  | Except.ok (ParseRes.trip_dates dest s e) =>
    Except.ok (tp_generate_itinerary model dest (toOrd e - toOrd s + 1) (some (s, e)))
  | Except.ok ParseRes.nomatch => Except.ok sorryStr

-- ==== Concrete inputs for witnesses and counterexamples ====

/-- A concrete embedding function for witnesses: embeds a text as the
one-dimensional vector of its length. -/
def embW : List Char → List Int := fun q => [Int.ofNat q.length]

/-- A concrete hash function for witnesses. -/
def hashW : List Char → Int := fun q => Int.ofNat (3 * q.length + 1)

/-- A stored entry of user `u1`. -/
def eW1 : PrefEntry :=
  { eid := "u1_1".toList, emb := [7], doc := "museums".toList,
    user := "u1".toList, structured_output := none }

/-- A stored entry of user `u2`. -/
def eW2 : PrefEntry :=
  { eid := "u2_1".toList, emb := [7], doc := "beaches".toList,
    user := "u2".toList, structured_output := none }

/-- A prior entry of `u1` at the same embedding as the query `qq` below. -/
def eC8 : PrefEntry :=
  { eid := "u1_0".toList, emb := [2], doc := "old".toList,
    user := "u1".toList, structured_output := none }

/-- A minimal activity accepted by the validator. -/
def actW : Activity :=
  { name := "A".toList, location := "L".toList,
    description := "D".toList, date := "d".toList, cuisine := none,
    why_its_suitable := "W".toList, reviews := none, rating := none }

/-- A minimal day plan accepted by the validator. -/
def dpW : DayPlan :=
  { date := "d".toList, activities := [actW],
    restaurants := ["R".toList], flight := none }

/-- A minimal itinerary with a single day plan. -/
def itC6w : Itinerary :=
  { name := "T".toList, day_plans := [dpW], hotel := "H".toList }

/-- The JSON value that validates to `itC6w`. -/
def jItC6w : J :=
  J.obj [("name".toList, J.str ("T".toList)),
    ("day_plans".toList, J.arr [J.obj [("date".toList, J.str ("d".toList)),
      ("activities".toList, J.arr [J.obj [("name".toList, J.str ("A".toList)),
        ("location".toList, J.str ("L".toList)),
        ("description".toList, J.str ("D".toList)),
        ("date".toList, J.str ("d".toList)),
        ("why_its_suitable".toList, J.str ("W".toList))]]),
      ("restaurants".toList, J.arr [J.str ("R".toList)])]]),
    ("hotel".toList, J.str ("H".toList))]

/-- A well-formed one-day itinerary text, fed to the pipeline with a
requested duration of 3 days. -/
def jC6 : List Char := "\x7b\"name\": \"T\", \"day_plans\": [\x7b\"date\": \"2025-10-01\", \"activities\": [\x7b\"name\": \"A\", \"location\": \"L\", \"description\": \"D\", \"date\": \"2025-10-01\", \"why_its_suitable\": \"W\"\x7d], \"restaurants\": [\"R\"]\x7d], \"hotel\": \"H\"\x7d".toList

/-- The store after one `log_user_query` call. -/
def storeC5 : List PrefEntry :=
  log_user_query embW hashW [] ("u1".toList) ("q1".toList) none


/-- A small well-formed JSON text with no backticks. -/
def jC1w : List Char := "[1, 2]".toList

/-- Its parse. -/
def vC1w : J := J.arr [J.num ("1".toList), J.num ("2".toList)]

/-- A well-formed JSON text whose string payload contains a three-backtick
run. -/
def jC1c : List Char := "\"a```b\"".toList

/-- A text with a line-trailing fence marker in the middle, not at either
end. -/
def jC2c : List Char := "[1,```\n2]".toList

theorem allWs_cons {c : Char} {t : List Char} :
    allWs (c :: t) = (isJsonWs c && allWs t) := by
  simp [allWs]

theorem ws_enum {c : Char} (h : isJsonWs c = true) :
    c = ' ' ∨ c = '\t' ∨ c = '\n' ∨ c = '\r' := by
  simp only [isJsonWs, Bool.or_eq_true, decide_eq_true_eq] at h
  tauto

theorem skipWs_cons {c : Char} {t : List Char} :
    skipWs (c :: t) = if isJsonWs c then skipWs t else c :: t :=
  List.dropWhile_cons

theorem skipWs_allWs {cs : List Char} (h : allWs cs = true) : skipWs cs = [] := by
  induction cs with
  | nil => rfl
  | cons c t ih =>
    rw [allWs_cons, Bool.and_eq_true] at h
    rw [skipWs_cons, if_pos h.1, ih h.2]

theorem skipWs_append {cs ext : List Char} (h : allWs ext = true) :
    skipWs (cs ++ ext) = if (skipWs cs).isEmpty then [] else skipWs cs ++ ext := by
  have hext : skipWs ext = [] := skipWs_allWs h
  unfold skipWs at hext ⊢
  rw [List.dropWhile_append, hext]

theorem skipWs_head_not_ws {cs t : List Char} {c : Char}
    (h : skipWs cs = c :: t) : isJsonWs c = false := by
  induction cs with
  | nil => simp [skipWs] at h
  | cons a r ih =>
    rw [skipWs_cons] at h
    by_cases ha : isJsonWs a
    · rw [if_pos ha] at h; exact ih h
    · rw [if_neg ha] at h
      cases h
      exact Bool.not_eq_true _ ▸ (by simpa using ha)

theorem takeWhile_eq_nil_of_allWs {q : Char → Bool} {ext : List Char}
    (hq : ∀ c, isJsonWs c = true → q c = false) (h : allWs ext = true) :
    ext.takeWhile q = [] := by
  cases ext with
  | nil => rfl
  | cons e t =>
    rw [allWs_cons, Bool.and_eq_true] at h
    simp [List.takeWhile_cons, hq e h.1]

theorem dropWhile_eq_self_of_takeWhile_nil {q : Char → Bool} {l : List Char}
    (h : l.takeWhile q = []) : l.dropWhile q = l := by
  cases l with
  | nil => rfl
  | cons c t =>
    rw [List.takeWhile_cons] at h
    rw [List.dropWhile_cons]
    by_cases hc : q c
    · simp [hc] at h
    · rw [if_neg hc]

theorem takeWhile_append_of_nil {q : Char → Bool} {cs ext : List Char}
    (h : ext.takeWhile q = []) :
    (cs ++ ext).takeWhile q = cs.takeWhile q := by
  induction cs with
  | nil => simpa using h
  | cons c t ih =>
    rw [List.cons_append, List.takeWhile_cons, List.takeWhile_cons]
    by_cases hc : q c
    · rw [if_pos hc, if_pos hc, ih]
    · rw [if_neg hc, if_neg hc]

theorem dropWhile_append_of_nil {q : Char → Bool} {cs ext : List Char}
    (h : ext.takeWhile q = []) :
    (cs ++ ext).dropWhile q = cs.dropWhile q ++ ext := by
  induction cs with
  | nil => simpa using dropWhile_eq_self_of_takeWhile_nil h
  | cons c t ih =>
    rw [List.cons_append, List.dropWhile_cons, List.dropWhile_cons]
    by_cases hc : q c
    · rw [if_pos hc, if_pos hc, ih]
    · rw [if_neg hc, if_neg hc, List.cons_append]

theorem ws_not_digit {c : Char} (h : isJsonWs c = true) : c.isDigit = false := by
  rcases ws_enum h with rfl | rfl | rfl | rfl <;> decide

theorem litRest_append {pat cs ext : List Char}
    (hpat : ∀ c ∈ pat, isJsonWs c = false) (hext : allWs ext = true) :
    litRest pat (cs ++ ext) = (litRest pat cs).map (· ++ ext) := by
  induction pat generalizing cs with
  | nil => simp [litRest]
  | cons p ps ih =>
    cases cs with
    | nil =>
      simp only [List.nil_append]
      cases ext with
      | nil => simp [litRest]
      | cons e t =>
        rw [allWs_cons, Bool.and_eq_true] at hext
        have hep : (e = p) = False := by
          simp only [eq_iff_iff, iff_false]
          intro h
          subst h
          exact absurd (hpat e (by simp)) (by simp [hext.1])
        simp [litRest, hep]
    | cons c t =>
      simp only [List.cons_append, litRest]
      by_cases hc : c = p
      · rw [if_pos hc, if_pos hc]
        exact ih (fun x hx => hpat x (by simp [hx])) 
      · rw [if_neg hc, if_neg hc]
        rfl

theorem litRest_suffix {pat cs r : List Char}
    (h : litRest pat cs = some r) : r <:+ cs := by
  induction pat generalizing cs with
  | nil =>
    simp only [litRest, Option.some.injEq] at h
    exact h ▸ List.suffix_refl r
  | cons p ps ih =>
    cases cs with
    | nil => simp [litRest] at h
    | cons c t =>
      simp only [litRest] at h
      by_cases hc : c = p
      · rw [if_pos hc] at h
        exact (ih h).trans (List.suffix_cons c t)
      · rw [if_neg hc] at h
        exact absurd h (by simp)

theorem ws_escDecode {e : Char} (h : isJsonWs e = true) : escDecode e = none := by
  rcases ws_enum h with rfl | rfl | rfl | rfl <;> decide

theorem ws_not_u {e : Char} (h : isJsonWs e = true) : (e = 'u') = False := by
  rcases ws_enum h with rfl | rfl | rfl | rfl <;> decide

theorem ws_hexVal {c : Char} (h : isJsonWs c = true) : hexVal c = none := by
  rcases ws_enum h with rfl | rfl | rfl | rfl <;> decide

theorem hex4_some_shape {r2 r3 : List Char} {n : Nat}
    (h : hex4 r2 = some (n, r3)) :
    ∃ h1 h2 h3 h4, r2 = h1 :: h2 :: h3 :: h4 :: r3 := by
  match r2 with
  | [] => simp [hex4] at h
  | [a] => simp [hex4] at h
  | [a, b] => simp [hex4] at h
  | [a, b, c] => simp [hex4] at h
  | a :: b :: c :: d :: r =>
    refine ⟨a, b, c, d, ?_⟩
    simp only [hex4] at h
    split at h
    · simp only [Option.some.injEq, Prod.mk.injEq] at h
      rw [h.2]
    · exact absurd h (by simp)

theorem hex4_append {r2 ext : List Char} (hext : allWs ext = true) :
    hex4 (r2 ++ ext) = (hex4 r2).map fun p => (p.1, p.2 ++ ext) := by
  cases ext with
  | nil => simp
  | cons w ws =>
    rw [allWs_cons, Bool.and_eq_true] at hext
    have hw : hexVal w = none := ws_hexVal hext.1
    match r2 with
    | [] =>
      cases ws with
      | nil => simp [hex4, hw]
      | cons w2 ws2 =>
        cases ws2 with
        | nil => simp [hex4, hw]
        | cons w3 ws3 =>
          cases ws3 with
          | nil => simp [hex4, hw]
          | cons w4 ws4 => simp [hex4, hw]
    | [a] =>
      cases ws with
      | nil => simp [hex4, hw]
      | cons w2 ws2 =>
        cases ws2 with
        | nil => simp [hex4, hw]
        | cons w3 ws3 =>
          cases hexVal a <;> simp [hex4, hw]
    | [a, b] =>
      cases ws with
      | nil => cases hexVal a <;> cases hexVal b <;> simp [hex4, hw]
      | cons w2 ws2 => cases hexVal a <;> cases hexVal b <;> simp [hex4, hw]
    | [a, b, c] => cases hexVal a <;> cases hexVal b <;> cases hexVal c <;> simp [hex4, hw]
    | a :: b :: c :: d :: r =>
      simp only [List.cons_append, hex4]
      rcases hexVal a with _ | va <;> rcases hexVal b with _ | vb <;>
        rcases hexVal c with _ | vc <;> rcases hexVal d with _ | vd <;> simp

theorem strBodyF_fuelIrrel {f g : Nat} {cs : List Char}
    (hf : cs.length ≤ f) (hg : cs.length ≤ g) :
    strBodyF f cs = strBodyF g cs := by
  induction f generalizing g cs with
  | zero =>
    have : cs = [] := List.length_eq_zero.mp (Nat.le_zero.mp hf)
    subst this
    cases g with
    | zero => rfl
    | succ g' => rfl
  | succ f ih =>
    cases g with
    | zero =>
      have : cs = [] := List.length_eq_zero.mp (Nat.le_zero.mp hg)
      subst this
      rfl
    | succ g' =>
      cases cs with
      | nil => rfl
      | cons c r =>
        simp only [List.length_cons, Nat.succ_le_succ_iff] at hf hg
        by_cases h1 : c = '"'
        · simp [strBodyF, h1]
        · by_cases h2 : c = '\\'
          · subst h2
            cases r with
            | nil => rfl
            | cons e r2 =>
              have hr2 : r2.length ≤ f := Nat.le_of_succ_le (by simpa using hf)
              have hr2' : r2.length ≤ g' := Nat.le_of_succ_le (by simpa using hg)
              by_cases hu : e = 'u'
              · subst hu
                cases hh : hex4 r2 with
                | none => simp [strBodyF, escDecode, hh]
                | some p =>
                  obtain ⟨n, r3⟩ := p
                  obtain ⟨a, b, c2, d, hshape⟩ := hex4_some_shape hh
                  have hlen : r3.length ≤ r2.length := by
                    subst hshape; simp only [List.length_cons]; omega
                  simp [strBodyF, escDecode, hh,
                    ih (le_trans hlen hr2) (le_trans hlen hr2')]
              · cases hesc : escDecode e with
                | some d => simp [strBodyF, hesc, ih hr2 hr2']
                | none => simp [strBodyF, hesc, hu]
          · by_cases h3 : c.toNat < 32
            · simp [strBodyF, h1, h2, h3]
            · simp [strBodyF, h1, h2, h3, ih hf hg]

theorem strBodyF_allWs {f : Nat} {l : List Char} (h : allWs l = true) :
    strBodyF f l = none := by
  induction f generalizing l with
  | zero => rfl
  | succ f ih =>
    cases l with
    | nil => rfl
    | cons w ws =>
      rw [allWs_cons, Bool.and_eq_true] at h
      rcases ws_enum h.1 with rfl | rfl | rfl | rfl <;>
        simp [strBodyF, ih h.2]

theorem strBodyF_append {ext : List Char} (hext : allWs ext = true) :
    ∀ {f : Nat} {cs : List Char},
    strBodyF f (cs ++ ext) = (strBodyF f cs).map fun p => (p.1, p.2 ++ ext) := by
  intro f
  induction f with
  | zero => intro cs; rfl
  | succ f ih =>
    intro cs
    cases cs with
    | nil =>
      simp only [List.nil_append]
      rw [strBodyF_allWs hext]
      rfl
    | cons c r =>
      by_cases h1 : c = '"'
      · simp [strBodyF, h1]
      · by_cases h2 : c = '\\'
        · subst h2
          cases r with
          | nil =>
            simp only [List.nil_append, List.cons_append]
            cases ext with
            | nil => rfl
            | cons w ws =>
              rw [allWs_cons, Bool.and_eq_true] at hext
              simp [strBodyF, ws_escDecode hext.1, ws_not_u hext.1]
          | cons e r2 =>
            by_cases hu : e = 'u'
            · subst hu
              cases hh : hex4 r2 with
              | none =>
                simp [strBodyF, escDecode, hex4_append hext, hh]
              | some p =>
                obtain ⟨n, r3⟩ := p
                simp [strBodyF, escDecode, hex4_append hext, hh, ih,
                  Option.map_map]
                rfl
            · cases hesc : escDecode e with
              | some d =>
                simp [strBodyF, hesc, ih, Option.map_map]
                rfl
              | none => simp [strBodyF, hesc, hu]
        · by_cases h3 : c.toNat < 32
          · simp [strBodyF, h1, h2, h3]
          · simp [strBodyF, h1, h2, h3, ih, Option.map_map]
            rfl

theorem strBody_append {cs ext : List Char} (hext : allWs ext = true) :
    strBody (cs ++ ext) = (strBody cs).map fun p => (p.1, p.2 ++ ext) := by
  unfold strBody
  rw [strBodyF_append hext,
    strBodyF_fuelIrrel (f := cs.length) (g := (cs ++ ext).length)
      le_rfl (by simp)]

theorem strBodyF_suffix {f : Nat} {cs s r : List Char}
    (h : strBodyF f cs = some (s, r)) : r <:+ cs := by
  induction f generalizing cs s r with
  | zero => exact absurd h (by simp [strBodyF])
  | succ f ih =>
    cases cs with
    | nil => exact absurd h (by simp [strBodyF])
    | cons c t =>
      by_cases h1 : c = '"'
      · simp only [strBodyF, if_pos h1, Option.some.injEq, Prod.mk.injEq] at h
        exact h.2 ▸ List.suffix_cons c t
      · by_cases h2 : c = '\\'
        · subst h2
          cases t with
          | nil => exact absurd h (by simp [strBodyF, h1])
          | cons e r2 =>
            by_cases hu : e = 'u'
            · subst hu
              cases hh : hex4 r2 with
              | none => exact absurd h (by simp [strBodyF, escDecode, hh])
              | some p =>
                obtain ⟨n, r3⟩ := p
                obtain ⟨a, b, c2, d, hshape⟩ := hex4_some_shape hh
                cases hsb : strBodyF f r3 with
                | none => simp [strBodyF, escDecode, hh, hsb] at h
                | some q =>
                  obtain ⟨s3, r4⟩ := q
                  simp [strBodyF, escDecode, hh, hsb] at h
                  rw [← h.2]
                  refine (ih hsb).trans ?_
                  rw [hshape]
                  exact ((((List.suffix_cons d r3).trans
                    (List.suffix_cons c2 _)).trans
                    (List.suffix_cons b _)).trans
                    (List.suffix_cons a _)).trans
                    ((List.suffix_cons 'u' _).trans (List.suffix_cons '\\' _))
            · cases hesc : escDecode e with
              | some d =>
                cases hsb : strBodyF f r2 with
                | none => simp [strBodyF, hesc, hsb] at h
                | some q =>
                  obtain ⟨s3, r4⟩ := q
                  simp [strBodyF, hesc, hsb] at h
                  rw [← h.2]
                  exact ((ih hsb).trans
                    ((List.suffix_cons e r2).trans (List.suffix_cons '\\' _)))
              | none => exact absurd h (by simp [strBodyF, hesc, hu])
        · by_cases h3 : c.toNat < 32
          · exact absurd h (by simp [strBodyF, h1, h2, h3])
          · cases hsb : strBodyF f t with
            | none => simp [strBodyF, h1, h2, h3, hsb] at h
            | some q =>
              obtain ⟨s3, r4⟩ := q
              simp [strBodyF, h1, h2, h3, hsb] at h
              rw [← h.2]
              exact (ih hsb).trans (List.suffix_cons c t)

theorem strBody_suffix {cs s r : List Char}
    (h : strBody cs = some (s, r)) : r <:+ cs :=
  strBodyF_suffix h

theorem ws_takeWhile_digit_nil {ext : List Char} (h : allWs ext = true) :
    ext.takeWhile Char.isDigit = [] :=
  takeWhile_eq_nil_of_allWs (fun _ hc => ws_not_digit hc) h

theorem intPart_append {cs ext : List Char} (hext : allWs ext = true) :
    intPart (cs ++ ext) = (intPart cs).map fun p => (p.1, p.2 ++ ext) := by
  have htw := ws_takeWhile_digit_nil hext
  cases cs with
  | nil =>
    simp only [List.nil_append]
    cases ext with
    | nil => rfl
    | cons w ws =>
      rw [allWs_cons, Bool.and_eq_true] at hext
      have h0 : (w = '0') = False := by
        simp only [eq_iff_iff, iff_false]
        intro h; subst h; exact absurd hext.1 (by decide)
      have hd : w.isDigit = false := ws_not_digit hext.1
      simp [intPart, h0, hd]
  | cons c r =>
    by_cases h0 : c = '0'
    · subst h0; simp [intPart]
    · have hsplit : intPart (c :: r) =
          if c.isDigit then
            some (c :: r.takeWhile Char.isDigit, r.dropWhile Char.isDigit)
          else none := by
        cases r <;> simp [intPart, h0]
      have hsplit2 : intPart (c :: (r ++ ext)) =
          if c.isDigit then
            some (c :: (r ++ ext).takeWhile Char.isDigit,
              (r ++ ext).dropWhile Char.isDigit)
          else none := by
        cases hre : r ++ ext with
        | nil => simp [intPart, h0, hre]
        | cons x xs => rw [← hre]; cases r ++ ext <;> simp [intPart, h0, hre]
      rw [List.cons_append, hsplit, hsplit2,
        takeWhile_append_of_nil htw, dropWhile_append_of_nil htw]
      by_cases hd : c.isDigit <;> simp [hd]

theorem fracPart_append {cs ext : List Char} (hext : allWs ext = true) :
    fracPart (cs ++ ext) = ((fracPart cs).1, (fracPart cs).2 ++ ext) := by
  have htw := ws_takeWhile_digit_nil hext
  cases cs with
  | nil =>
    simp only [List.nil_append]
    cases ext with
    | nil => rfl
    | cons w ws =>
      rw [allWs_cons, Bool.and_eq_true] at hext
      have hdot : (w = '.') = False := by
        simp only [eq_iff_iff, iff_false]
        intro h; subst h; exact absurd hext.1 (by decide)
      cases ws with
      | nil => simp [fracPart, hdot]
      | cons w2 ws2 => simp [fracPart, hdot]
  | cons c r =>
    by_cases hdot : c = '.'
    · subst hdot
      cases r with
      | nil =>
        simp only [List.nil_append, List.cons_append]
        cases ext with
        | nil => rfl
        | cons w ws =>
          rw [allWs_cons, Bool.and_eq_true] at hext
          simp [fracPart, ws_not_digit hext.1]
      | cons c2 r2 =>
        by_cases hd : c2.isDigit
        · simp [fracPart, hd, takeWhile_append_of_nil htw,
            dropWhile_append_of_nil htw]
        · simp [fracPart, hd]
    · have h1 : fracPart (c :: r) = ([], c :: r) := by
        cases r <;> simp [fracPart, hdot]
      have h2 : fracPart (c :: (r ++ ext)) = ([], c :: (r ++ ext)) := by
        cases r ++ ext <;> simp [fracPart, hdot]
      simp [h1, h2]

theorem expPart_append {cs ext : List Char} (hext : allWs ext = true) :
    expPart (cs ++ ext) = ((expPart cs).1, (expPart cs).2 ++ ext) := by
  have htw := ws_takeWhile_digit_nil hext
  cases cs with
  | nil =>
    simp only [List.nil_append]
    cases ext with
    | nil => rfl
    | cons w ws =>
      rw [allWs_cons, Bool.and_eq_true] at hext
      have he : (w = 'e' ∨ w = 'E') = False := by
        simp only [eq_iff_iff, iff_false]
        rintro (h | h) <;> (subst h; exact absurd hext.1 (by decide))
      simp [expPart, he]
  | cons e rest =>
    by_cases he : e = 'e' ∨ e = 'E'
    · cases rest with
      | nil =>
        simp only [List.nil_append, List.cons_append]
        cases ext with
        | nil => simp
        | cons w ws =>
          rw [allWs_cons, Bool.and_eq_true] at hext
          have hwd : w.isDigit = false := ws_not_digit hext.1
          have hwpm : ((w = '+' ∨ w = '-') ∧ Char.isDigit ws.headI) = False := by
            simp only [eq_iff_iff, iff_false]
            rintro ⟨h | h, _⟩ <;> (subst h; exact absurd hext.1 (by decide))
          cases ws with
          | nil => simp [expPart, he, hwd]
          | cons w2 ws2 =>
            rw [allWs_cons, Bool.and_eq_true] at hext
            have hw2 : w2.isDigit = false := ws_not_digit hext.2.1
            have hpm : (w = '+' ∨ w = '-') = False := by
              simp only [eq_iff_iff, iff_false]
              rintro (h | h) <;> (subst h; exact absurd hext.1 (by decide))
            simp [expPart, he, hwd, hpm, hw2]
      | cons s rest2 =>
        cases rest2 with
        | nil =>
          simp only [List.cons_append, List.nil_append]
          cases ext with
          | nil => simp
          | cons w ws =>
            rw [allWs_cons, Bool.and_eq_true] at hext
            have hwd : w.isDigit = false := ws_not_digit hext.1
            by_cases hs : s.isDigit
            · have hpm : ((s = '+' ∨ s = '-') ∧ w.isDigit) = False := by
                simp [hwd]
              simp [expPart, he, hpm, hs, hwd, List.tail,
                takeWhile_eq_nil_of_allWs (fun _ hc => ws_not_digit hc) hext.2,
                dropWhile_eq_self_of_takeWhile_nil
                  (takeWhile_eq_nil_of_allWs (fun _ hc => ws_not_digit hc) hext.2)]
            · have hpm : ((s = '+' ∨ s = '-') ∧ w.isDigit) = False := by
                simp [hwd]
              simp [expPart, he, hpm, hs]
        | cons c r =>
          by_cases hpm : (s = '+' ∨ s = '-') ∧ c.isDigit
          · simp [expPart, he, hpm, takeWhile_append_of_nil htw,
              dropWhile_append_of_nil htw]
          · by_cases hs : s.isDigit
            · have hT := @takeWhile_append_of_nil Char.isDigit (c :: r) ext htw
              have hD := @dropWhile_append_of_nil Char.isDigit (c :: r) ext htw
              rw [List.cons_append] at hT hD
              simp [expPart, he, hpm, hs, List.tail, hT, hD]
            · simp [expPart, he, hpm, hs]
    · have hf : (e = 'e' ∨ e = 'E') = False := by simp [he]
      cases rest with
      | nil =>
        simp only [List.nil_append, List.cons_append]
        cases ext with
        | nil => simp
        | cons w ws =>
          cases ws with
          | nil => simp [expPart, hf]
          | cons w2 ws2 => simp [expPart, hf]
      | cons s rest2 =>
        cases rest2 with
        | nil =>
          simp only [List.cons_append, List.nil_append]
          cases ext with
          | nil => simp
          | cons w ws => simp [expPart, hf]
        | cons c r => simp [expPart, hf]

theorem numTail_append {body ext : List Char} (hext : allWs ext = true) :
    numTail (body ++ ext) = (numTail body).map fun p => (p.1, p.2 ++ ext) := by
  unfold numTail
  rw [intPart_append hext]
  cases hip : intPart body with
  | none => rfl
  | some q =>
    obtain ⟨ip, cs2⟩ := q
    simp only [Option.map_some']
    rw [fracPart_append hext, expPart_append hext]

theorem numToken_eq_numTail {c : Char} {r : List Char} (h : ¬c = '-') :
    numToken (c :: r) = numTail (c :: r) := by
  rw [numToken.eq_def]
  split
  · rename_i r2 heq
    cases heq
    exact absurd rfl h
  · rfl

theorem numToken_append {cs ext : List Char} (hext : allWs ext = true) :
    numToken (cs ++ ext) = (numToken cs).map fun p => (p.1, p.2 ++ ext) := by
  cases cs with
  | nil =>
    simp only [List.nil_append]
    cases ext with
    | nil => rfl
    | cons w ws =>
      rw [allWs_cons, Bool.and_eq_true] at hext
      have hm : ¬w = '-' := fun hh => by subst hh; exact absurd hext.1 (by decide)
      have h0 : ¬w = '0' := fun hh => by subst hh; exact absurd hext.1 (by decide)
      have hd : w.isDigit = false := ws_not_digit hext.1
      rw [numToken_eq_numTail hm]
      have hip : intPart (w :: ws) = none := by
        cases ws <;> simp [intPart, h0, hd]
      rw [show numToken ([] : List Char) = none from rfl]
      simp [numTail, hip]
  | cons c r =>
    by_cases hm : c = '-'
    · subst hm
      rw [List.cons_append]
      rw [show numToken ('-' :: (r ++ ext)) =
        (numTail (r ++ ext)).map fun p => ('-' :: p.1, p.2) from rfl]
      rw [show numToken ('-' :: r) =
        (numTail r).map fun p => ('-' :: p.1, p.2) from rfl]
      rw [numTail_append hext]
      cases numTail r <;> rfl
    · rw [List.cons_append, numToken_eq_numTail hm, numToken_eq_numTail hm,
        ← List.cons_append]
      exact numTail_append hext

theorem intPart_suffix {cs tok rest : List Char}
    (h : intPart cs = some (tok, rest)) : rest <:+ cs := by
  rw [intPart.eq_def] at h
  split at h
  · exact absurd h (by simp)
  · rename_i r
    simp only [Option.some.injEq, Prod.mk.injEq] at h
    rw [← h.2]
    exact List.suffix_cons '0' r
  · rename_i c r hne
    by_cases hd : c.isDigit
    · rw [if_pos hd] at h
      simp only [Option.some.injEq, Prod.mk.injEq] at h
      rw [← h.2]
      exact (List.dropWhile_suffix _).trans (List.suffix_cons c r)
    · rw [if_neg hd] at h
      exact absurd h (by simp)

theorem fracPart_suffix (cs : List Char) : (fracPart cs).2 <:+ cs := by
  rw [fracPart.eq_def]
  split
  · rename_i c r
    by_cases hd : c.isDigit
    · simp only [if_pos hd]
      exact ((List.dropWhile_suffix _).trans (List.suffix_cons c r)).trans
        (List.suffix_cons '.' _)
    · simp only [if_neg hd]
      exact List.suffix_refl _
  · exact List.suffix_refl _

theorem expPart_suffix (cs : List Char) : (expPart cs).2 <:+ cs := by
  match cs with
  | [] => exact List.suffix_refl _
  | e :: rest =>
    by_cases he : e = 'e' ∨ e = 'E'
    · cases rest with
      | nil => simp [expPart, he]
      | cons s rest2 =>
        cases rest2 with
        | nil =>
          by_cases hs : s.isDigit
          · simp [expPart, he, hs]
          · simp [expPart, he, hs]
        | cons c r =>
          by_cases hpm : (s = '+' ∨ s = '-') ∧ c.isDigit
          · simp only [expPart, he, if_pos, hpm, reduceIte]
            exact (((List.dropWhile_suffix _).trans
              (List.suffix_cons c r)).trans (List.suffix_cons s _)).trans
              (List.suffix_cons e _)
          · by_cases hs : s.isDigit
            · simp only [expPart, he, hpm, hs, reduceIte, if_pos, if_neg,
                List.tail_cons]
              exact ((List.dropWhile_suffix _).trans
                (List.suffix_cons s (c :: r))).trans (List.suffix_cons e _)
            · simp [expPart, he, hpm, hs]
    · cases rest with
      | nil => simp [expPart, he]
      | cons s rest2 =>
        cases rest2 with
        | nil => simp [expPart, he]
        | cons c r => simp [expPart, he]


theorem numTail_suffix {body tok rest : List Char}
    (h : numTail body = some (tok, rest)) : rest <:+ body := by
  unfold numTail at h
  cases hip : intPart body with
  | none => rw [hip] at h; exact absurd h (by simp)
  | some q =>
    obtain ⟨ip, cs2⟩ := q
    rw [hip] at h
    simp only [Option.some.injEq, Prod.mk.injEq] at h
    rw [← h.2]
    exact (expPart_suffix (fracPart cs2).2).trans
      ((fracPart_suffix cs2).trans (intPart_suffix hip))

theorem numToken_suffix {cs tok rest : List Char}
    (h : numToken cs = some (tok, rest)) : rest <:+ cs := by
  cases cs with
  | nil => exact absurd h (by simp [numToken, numTail, intPart])
  | cons c r =>
    by_cases hm : c = '-'
    · subst hm
      rw [show numToken ('-' :: r) =
        (numTail r).map fun p => ('-' :: p.1, p.2) from rfl] at h
      cases hnt : numTail r with
      | none => rw [hnt] at h; exact absurd h (by simp)
      | some q =>
        obtain ⟨a, b⟩ := q
        rw [hnt] at h
        simp only [Option.map_some', Option.some.injEq, Prod.mk.injEq] at h
        rw [← h.2]
        exact (numTail_suffix hnt).trans (List.suffix_cons '-' r)
    · rw [numToken_eq_numTail hm] at h
      exact numTail_suffix h

theorem ws_char_facts {w : Char} (h : isJsonWs w = true) :
    w ≠ lbrace ∧ w ≠ rbrace ∧ w ≠ '[' ∧ w ≠ ']' ∧ w ≠ ',' ∧ w ≠ ':' ∧
    w ≠ '"' ∧ w ≠ 't' ∧ w ≠ 'f' ∧ w ≠ 'n' ∧ w ≠ 'N' ∧ w ≠ 'I' ∧
    w ≠ '-' ∧ w.isDigit = false := by
  rcases ws_enum h with rfl | rfl | rfl | rfl <;> exact (by decide)

theorem pstep_val_nil {f : Nat} : pstep f PMode.val [] = none := by
  cases f <;> rfl

theorem pstep_itemsN_nil {f : Nat} {acc : List J} :
    pstep f (PMode.itemsN acc) [] = none := by
  cases f with
  | zero => rfl
  | succ f => simp [pstep, pstep_val_nil]

theorem pstep_items0_nil {f : Nat} : pstep f PMode.items0 [] = none := by
  cases f with
  | zero => rfl
  | succ f => simp [pstep, pstep_itemsN_nil]

theorem pstep_members0_nil {f : Nat} : pstep f PMode.members0 [] = none := by
  cases f <;> rfl

theorem pstep_membersN_nil {f : Nat} {acc : List (List Char × J)} :
    pstep f (PMode.membersN acc) [] = none := by
  cases f <;> rfl

theorem pstep_val_ws {f : Nat} {u : List Char} (h : allWs u = true) :
    pstep f PMode.val u = none := by
  cases f with
  | zero => rfl
  | succ f =>
    cases u with
    | nil => rfl
    | cons w t =>
      rw [allWs_cons, Bool.and_eq_true] at h
      obtain ⟨e1, e2, e3, e4, e5, e6, e7, e8, e9, e10, e11, e12, e13, e14⟩ :=
        ws_char_facts h.1
      simp [pstep, e1, e3, e7, e8, e9, e10, e11, e12, e13, e14]

theorem pstep_itemsN_ws {f : Nat} {acc : List J} {u : List Char}
    (h : allWs u = true) : pstep f (PMode.itemsN acc) u = none := by
  cases f with
  | zero => rfl
  | succ f => simp [pstep, pstep_val_ws h]

theorem pstep_items0_ws {f : Nat} {u : List Char} (h : allWs u = true) :
    pstep f PMode.items0 u = none := by
  cases f with
  | zero => rfl
  | succ f =>
    cases u with
    | nil => simp [pstep, pstep_itemsN_nil]
    | cons w t =>
      have hws := h
      rw [allWs_cons, Bool.and_eq_true] at hws
      have hne : w ≠ ']' := (ws_char_facts hws.1).2.2.2.1
      simp only [pstep]
      split
      · rename_i r heq
        rw [List.cons.injEq] at heq
        exact absurd heq.1 hne
      · exact pstep_itemsN_ws h

theorem pstep_members0_ws {f : Nat} {u : List Char} (h : allWs u = true) :
    pstep f PMode.members0 u = none := by
  cases f with
  | zero => rfl
  | succ f =>
    cases u with
    | nil => rfl
    | cons w t =>
      rw [allWs_cons, Bool.and_eq_true] at h
      have hne : w ≠ rbrace := (ws_char_facts h.1).2.1
      have hne2 : w ≠ '"' := (ws_char_facts h.1).2.2.2.2.2.2.1
      simp only [pstep, if_neg hne]
      cases f with
      | zero => rfl
      | succ f => simp [pstep, hne2]

theorem pstep_membersN_ws {f : Nat} {acc : List (List Char × J)}
    {u : List Char} (h : allWs u = true) :
    pstep f (PMode.membersN acc) u = none := by
  cases f with
  | zero => rfl
  | succ f =>
    cases u with
    | nil => rfl
    | cons w t =>
      rw [allWs_cons, Bool.and_eq_true] at h
      have hne : w ≠ '"' := (ws_char_facts h.1).2.2.2.2.2.2.1
      simp [pstep, hne]

theorem pstep_items0_cons_ne {f : Nat} {c : Char} {t : List Char}
    (hc : c ≠ ']') :
    pstep (Nat.succ f) PMode.items0 (c :: t) = pstep f (PMode.itemsN []) (c :: t) := by
  simp only [pstep]
  split
  · rename_i r heq
    rw [List.cons.injEq] at heq
    exact absurd heq.1 hc
  · rfl

theorem pstep_membersN_cons_ne {f : Nat} {acc : List (List Char × J)}
    {c : Char} {t : List Char} (hc : c ≠ '"') :
    pstep (Nat.succ f) (PMode.membersN acc) (c :: t) = none := by
  simp [pstep, hc]

theorem pstep_append {ext : List Char} (hext : allWs ext = true) :
    ∀ {f : Nat} {m : PMode} {cs : List Char},
    pstep f m (cs ++ ext) = (pstep f m cs).map fun p => (p.1, p.2 ++ ext) := by
  intro f
  induction f with
  | zero => intro m cs; rfl
  | succ f ih =>
    intro m cs
    cases m with
    | val =>
      cases cs with
      | nil =>
        rw [List.nil_append, pstep_val_ws hext, pstep_val_nil]
        rfl
      | cons c t =>
        rw [List.cons_append]
        by_cases h1 : c = lbrace
        · simp only [pstep, if_pos h1]
          rw [skipWs_append hext]
          cases hsw : skipWs t with
          | nil =>
            simp only [List.isEmpty_nil, if_pos]
            rw [pstep_members0_nil]
            rfl
          | cons x xs =>
            simp only [List.isEmpty_cons, if_neg, Bool.false_eq_true,
              not_false_eq_true]
            rw [← hsw]
            exact ih
        · by_cases h2 : c = '['
          · simp only [pstep, if_neg h1, if_pos h2]
            rw [skipWs_append hext]
            cases hsw : skipWs t with
            | nil =>
              simp only [List.isEmpty_nil, if_pos]
              rw [pstep_items0_nil]
              rfl
            | cons x xs =>
              simp only [List.isEmpty_cons, if_neg, Bool.false_eq_true,
                not_false_eq_true]
              rw [← hsw]
              exact ih
          · by_cases h3 : c = '"'
            · simp only [pstep, if_neg h1, if_neg h2, if_pos h3]
              rw [strBody_append hext]
              cases strBody t <;> rfl
            · by_cases h4 : c = 't'
              · simp only [pstep, if_neg h1, if_neg h2, if_neg h3, if_pos h4]
                rw [litRest_append (by decide) hext]
                cases litRest ['r', 'u', 'e'] t <;> rfl
              · by_cases h5 : c = 'f'
                · simp only [pstep, if_neg h1, if_neg h2, if_neg h3, if_neg h4,
                    if_pos h5]
                  rw [litRest_append (by decide) hext]
                  cases litRest ['a', 'l', 's', 'e'] t <;> rfl
                · by_cases h6 : c = 'n'
                  · simp only [pstep, if_neg h1, if_neg h2, if_neg h3,
                      if_neg h4, if_neg h5, if_pos h6]
                    rw [litRest_append (by decide) hext]
                    cases litRest ['u', 'l', 'l'] t <;> rfl
                  · by_cases h7 : c = 'N'
                    · simp only [pstep, if_neg h1, if_neg h2, if_neg h3,
                        if_neg h4, if_neg h5, if_neg h6, if_pos h7]
                      rw [litRest_append (by decide) hext]
                      cases litRest ['a', 'N'] t <;> rfl
                    · by_cases h8 : c = 'I'
                      · simp only [pstep, if_neg h1, if_neg h2, if_neg h3,
                          if_neg h4, if_neg h5, if_neg h6, if_neg h7, if_pos h8]
                        rw [litRest_append (by decide) hext]
                        cases litRest ['n', 'f', 'i', 'n', 'i', 't', 'y'] t <;> rfl
                      · by_cases h9 : c = '-'
                        · simp only [pstep, if_neg h1, if_neg h2, if_neg h3,
                            if_neg h4, if_neg h5, if_neg h6, if_neg h7,
                            if_neg h8, if_pos h9]
                          rw [litRest_append (by decide) hext]
                          cases litRest ['I', 'n', 'f', 'i', 'n', 'i', 't', 'y'] t with
                          | some r => rfl
                          | none =>
                            simp only [Option.map_none']
                            rw [← List.cons_append, numToken_append hext]
                            cases numToken (c :: t) <;> rfl
                        · by_cases h10 : c.isDigit
                          · simp only [pstep, if_neg h1, if_neg h2, if_neg h3,
                              if_neg h4, if_neg h5, if_neg h6, if_neg h7,
                              if_neg h8, if_neg h9, if_pos h10]
                            rw [← List.cons_append, numToken_append hext]
                            cases numToken (c :: t) <;> rfl
                          · simp only [pstep, if_neg h1, if_neg h2, if_neg h3,
                              if_neg h4, if_neg h5, if_neg h6, if_neg h7,
                              if_neg h8, if_neg h9, if_neg h10]
                            rfl
    | items0 =>
      cases cs with
      | nil =>
        rw [List.nil_append, pstep_items0_ws hext, pstep_items0_nil]
        rfl
      | cons c t =>
        rw [List.cons_append]
        by_cases hc : c = ']'
        · subst hc
          simp [pstep]
        · rw [pstep_items0_cons_ne hc, pstep_items0_cons_ne hc,
            ← List.cons_append]
          exact ih
    | itemsN acc =>
      simp only [pstep]
      rw [ih]
      cases hv : pstep f PMode.val cs with
      | none => rfl
      | some p =>
        obtain ⟨v, r⟩ := p
        simp only [Option.map_some']
        rw [skipWs_append hext]
        cases hsw : skipWs r with
        | nil => simp
        | cons x xs =>
          simp only [List.isEmpty_cons, if_neg, Bool.false_eq_true,
            not_false_eq_true, List.cons_append]
          by_cases hx : x = ','
          · subst hx
            simp only
            rw [skipWs_append hext]
            cases hsw2 : skipWs xs with
            | nil =>
              simp only [List.isEmpty_nil, if_pos]
              rw [pstep_itemsN_nil]
              rfl
            | cons y ys =>
              simp only [List.isEmpty_cons, if_neg, Bool.false_eq_true,
                not_false_eq_true]
              rw [← hsw2]
              exact ih
          · by_cases hx2 : x = ']'
            · subst hx2
              simp
            · split
              · rename_i r2 heq
                rw [List.cons.injEq] at heq
                exact absurd heq.1 hx
              · rename_i r2 heq
                rw [List.cons.injEq] at heq
                exact absurd heq.1 hx2
              · split
                · rename_i r2 heq
                  rw [List.cons.injEq] at heq
                  exact absurd heq.1 hx
                · rename_i r2 heq
                  rw [List.cons.injEq] at heq
                  exact absurd heq.1 hx2
                · rfl
    | members0 =>
      cases cs with
      | nil =>
        rw [List.nil_append, pstep_members0_ws hext, pstep_members0_nil]
        rfl
      | cons c t =>
        rw [List.cons_append]
        by_cases hc : c = rbrace
        · simp [pstep, hc]
        · simp only [pstep, if_neg hc]
          rw [← List.cons_append]
          exact ih
    | membersN acc =>
      cases cs with
      | nil =>
        rw [List.nil_append, pstep_membersN_ws hext, pstep_membersN_nil]
        rfl
      | cons c t =>
        rw [List.cons_append]
        by_cases hc : c = '"'
        · subst hc
          simp only [pstep]
          rw [strBody_append hext]
          cases hsb : strBody t with
          | none => rfl
          | some p =>
            obtain ⟨k, r2⟩ := p
            simp only [Option.map_some']
            rw [skipWs_append hext]
            cases hsw : skipWs r2 with
            | nil => simp
            | cons x xs =>
              simp only [List.isEmpty_cons, if_neg, Bool.false_eq_true,
                not_false_eq_true, List.cons_append]
              by_cases hx : x = ':'
              · subst hx
                simp only
                rw [skipWs_append hext]
                cases hsw2 : skipWs xs with
                | nil =>
                  simp only [List.isEmpty_nil, if_pos]
                  rw [pstep_val_nil]
                  rfl
                | cons y ys =>
                  simp only [List.isEmpty_cons, if_neg, Bool.false_eq_true,
                    not_false_eq_true]
                  rw [← hsw2, ih]
                  cases hv : pstep f PMode.val (skipWs xs) with
                  | none => rfl
                  | some q =>
                    obtain ⟨v, r4⟩ := q
                    simp only [Option.map_some']
                    rw [skipWs_append hext]
                    cases hsw3 : skipWs r4 with
                    | nil => simp
                    | cons z zs =>
                      simp only [List.isEmpty_cons, if_neg, Bool.false_eq_true,
                        not_false_eq_true, List.cons_append]
                      by_cases hz : z = ','
                      · subst hz
                        simp only
                        rw [skipWs_append hext]
                        cases hsw4 : skipWs zs with
                        | nil =>
                          simp only [List.isEmpty_nil, if_pos]
                          rw [pstep_membersN_nil]
                          rfl
                        | cons w ws =>
                          simp only [List.isEmpty_cons, if_neg,
                            Bool.false_eq_true, not_false_eq_true]
                          rw [← hsw4]
                          exact ih
                      · split
                        · rename_i r5 heq
                          rw [List.cons.injEq] at heq
                          exact absurd heq.1 hz
                        · rename_i c2 z2 hne5 heq
                          rw [List.cons.injEq] at heq
                          rw [← heq.2]
                          by_cases hz2 : c2 = rbrace
                          · simp [heq.1, hz2]
                          · simp [heq.1, hz2]
                        · rename_i heq
                          simp at heq
              · split
                · rename_i r3 heq
                  rw [List.cons.injEq] at heq
                  exact absurd heq.1 hx
                · split
                  · rename_i r3 heq
                    rw [List.cons.injEq] at heq
                    exact absurd heq.1 hx
                  · rfl
        · rw [pstep_membersN_cons_ne hc, pstep_membersN_cons_ne hc]
          rfl

theorem skipWs_suffix (cs : List Char) : skipWs cs <:+ cs :=
  List.dropWhile_suffix _

theorem skipWs_cons_suffix {r1 r2 : List Char} {x : Char}
    (h : skipWs r1 = x :: r2) : r2 <:+ r1 := by
  have h2 : skipWs r1 <:+ r1 := skipWs_suffix r1
  rw [h] at h2
  exact (List.suffix_cons x r2).trans h2

theorem pstep_suffix :
    ∀ {f : Nat} {m : PMode} {cs : List Char} {v : J} {r : List Char},
    pstep f m cs = some (v, r) → r <:+ cs := by
  intro f
  induction f with
  | zero => intro m cs v r h; exact absurd h (by simp [pstep])
  | succ f ih =>
    intro m cs v r h
    cases m with
    | val =>
      cases cs with
      | nil => exact absurd h (by simp [pstep])
      | cons c t =>
        by_cases h1 : c = lbrace
        · rw [show pstep (Nat.succ f) PMode.val (c :: t) =
            pstep f PMode.members0 (skipWs t) from by simp only [pstep, if_pos h1]] at h
          exact ((ih h).trans (skipWs_suffix t)).trans (List.suffix_cons c t)
        · by_cases h2 : c = '['
          · rw [show pstep (Nat.succ f) PMode.val (c :: t) =
              pstep f PMode.items0 (skipWs t) from by simp only [pstep, if_neg h1, if_pos h2]] at h
            exact ((ih h).trans (skipWs_suffix t)).trans (List.suffix_cons c t)
          · by_cases h3 : c = '"'
            · rw [show pstep (Nat.succ f) PMode.val (c :: t) =
                (strBody t).map (fun p => (J.str p.1, p.2)) from by
                  simp only [pstep, if_neg h1, if_neg h2, if_pos h3]] at h
              cases hsb : strBody t with
              | none => rw [hsb] at h; exact absurd h (by simp)
              | some p =>
                obtain ⟨s1, r1⟩ := p
                rw [hsb] at h
                simp only [Option.map_some', Option.some.injEq,
                  Prod.mk.injEq] at h
                rw [← h.2]
                exact (strBody_suffix hsb).trans (List.suffix_cons c t)
            · by_cases h4 : c = 't'
              · rw [show pstep (Nat.succ f) PMode.val (c :: t) =
                  (litRest ['r', 'u', 'e'] t).map (fun q => (J.bool true, q)) from by
                    simp only [pstep, if_neg h1, if_neg h2, if_neg h3, if_pos h4]] at h
                cases hl : litRest ['r', 'u', 'e'] t with
                | none => rw [hl] at h; exact absurd h (by simp)
                | some q =>
                  rw [hl] at h
                  simp only [Option.map_some', Option.some.injEq,
                    Prod.mk.injEq] at h
                  rw [← h.2]
                  exact (litRest_suffix hl).trans (List.suffix_cons c t)
              · by_cases h5 : c = 'f'
                · rw [show pstep (Nat.succ f) PMode.val (c :: t) =
                    (litRest ['a', 'l', 's', 'e'] t).map
                      (fun q => (J.bool false, q)) from by
                      simp only [pstep, if_neg h1, if_neg h2, if_neg h3, if_neg h4, if_pos h5]] at h
                  cases hl : litRest ['a', 'l', 's', 'e'] t with
                  | none => rw [hl] at h; exact absurd h (by simp)
                  | some q =>
                    rw [hl] at h
                    simp only [Option.map_some', Option.some.injEq,
                      Prod.mk.injEq] at h
                    rw [← h.2]
                    exact (litRest_suffix hl).trans (List.suffix_cons c t)
                · by_cases h6 : c = 'n'
                  · rw [show pstep (Nat.succ f) PMode.val (c :: t) =
                      (litRest ['u', 'l', 'l'] t).map (fun q => (J.null, q)) from by
                        simp only [pstep, if_neg h1, if_neg h2, if_neg h3, if_neg h4, if_neg h5, if_pos h6]] at h
                    cases hl : litRest ['u', 'l', 'l'] t with
                    | none => rw [hl] at h; exact absurd h (by simp)
                    | some q =>
                      rw [hl] at h
                      simp only [Option.map_some', Option.some.injEq,
                        Prod.mk.injEq] at h
                      rw [← h.2]
                      exact (litRest_suffix hl).trans (List.suffix_cons c t)
                  · by_cases h7 : c = 'N'
                    · rw [show pstep (Nat.succ f) PMode.val (c :: t) =
                        (litRest ['a', 'N'] t).map
                          (fun q => (J.num ['N', 'a', 'N'], q)) from by
                          simp only [pstep, if_neg h1, if_neg h2, if_neg h3, if_neg h4, if_neg h5, if_neg h6, if_pos h7]] at h
                      cases hl : litRest ['a', 'N'] t with
                      | none => rw [hl] at h; exact absurd h (by simp)
                      | some q =>
                        rw [hl] at h
                        simp only [Option.map_some', Option.some.injEq,
                          Prod.mk.injEq] at h
                        rw [← h.2]
                        exact (litRest_suffix hl).trans (List.suffix_cons c t)
                    · by_cases h8 : c = 'I'
                      · rw [show pstep (Nat.succ f) PMode.val (c :: t) =
                          (litRest ['n', 'f', 'i', 'n', 'i', 't', 'y'] t).map
                            (fun q =>
                              (J.num ['I', 'n', 'f', 'i', 'n', 'i', 't', 'y'], q)) from by
                            simp only [pstep, if_neg h1, if_neg h2, if_neg h3, if_neg h4, if_neg h5, if_neg h6, if_neg h7, if_pos h8]] at h
                        cases hl : litRest ['n', 'f', 'i', 'n', 'i', 't', 'y'] t with
                        | none => rw [hl] at h; exact absurd h (by simp)
                        | some q =>
                          rw [hl] at h
                          simp only [Option.map_some', Option.some.injEq,
                            Prod.mk.injEq] at h
                          rw [← h.2]
                          exact (litRest_suffix hl).trans (List.suffix_cons c t)
                      · by_cases h9 : c = '-'
                        · rw [show pstep (Nat.succ f) PMode.val (c :: t) =
                            (match litRest ['I', 'n', 'f', 'i', 'n', 'i', 't', 'y'] t with
                              | some q =>
                                some (J.num ['-', 'I', 'n', 'f', 'i', 'n', 'i', 't', 'y'], q)
                              | none =>
                                (numToken (c :: t)).map fun p => (J.num p.1, p.2)) from by
                              simp only [pstep, if_neg h1, if_neg h2, if_neg h3, if_neg h4, if_neg h5, if_neg h6, if_neg h7, if_neg h8, if_pos h9]] at h
                          cases hl : litRest ['I', 'n', 'f', 'i', 'n', 'i', 't', 'y'] t with
                          | some q =>
                            rw [hl] at h
                            simp only [Option.some.injEq, Prod.mk.injEq] at h
                            rw [← h.2]
                            exact (litRest_suffix hl).trans (List.suffix_cons c t)
                          | none =>
                            rw [hl] at h
                            cases hn : numToken (c :: t) with
                            | none => rw [hn] at h; exact absurd h (by simp)
                            | some p =>
                              obtain ⟨tok, r1⟩ := p
                              rw [hn] at h
                              simp only [Option.map_some', Option.some.injEq,
                                Prod.mk.injEq] at h
                              rw [← h.2]
                              exact numToken_suffix hn
                        · by_cases h10 : c.isDigit
                          · rw [show pstep (Nat.succ f) PMode.val (c :: t) =
                              (numToken (c :: t)).map (fun p => (J.num p.1, p.2)) from by
                                simp only [pstep, if_neg h1, if_neg h2, if_neg h3, if_neg h4, if_neg h5, if_neg h6, if_neg h7, if_neg h8, if_neg h9, if_pos h10]] at h
                            cases hn : numToken (c :: t) with
                            | none => rw [hn] at h; exact absurd h (by simp)
                            | some p =>
                              obtain ⟨tok, r1⟩ := p
                              rw [hn] at h
                              simp only [Option.map_some', Option.some.injEq,
                                Prod.mk.injEq] at h
                              rw [← h.2]
                              exact numToken_suffix hn
                          · exact absurd h (by
                              simp only [pstep, if_neg h1, if_neg h2, if_neg h3,
                                if_neg h4, if_neg h5, if_neg h6, if_neg h7,
                                if_neg h8, if_neg h9, if_neg h10]
                              simp)
    | items0 =>
      cases cs with
      | nil => exact absurd h (by simp [pstep_items0_nil] at h ⊢)
      | cons c t =>
        by_cases hc : c = ']'
        · subst hc
          simp only [pstep, Option.some.injEq, Prod.mk.injEq] at h
          rw [← h.2]
          exact List.suffix_cons ']' t
        · rw [pstep_items0_cons_ne hc] at h
          exact ih h
    | itemsN acc =>
      simp only [pstep] at h
      split at h
      · exact absurd h (by simp)
      · rename_i p v1 r1 hv
        have hr1 : r1 <:+ cs := ih hv
        split at h
        · rename_i r2 heq
          exact (ih h).trans
            (((skipWs_suffix r2).trans (skipWs_cons_suffix heq)).trans hr1)
        · rename_i r2 heq
          simp only [Option.some.injEq, Prod.mk.injEq] at h
          rw [← h.2]
          exact (skipWs_cons_suffix heq).trans hr1
        · exact absurd h (by simp)
    | members0 =>
      cases cs with
      | nil => exact absurd h (by simp [pstep] at h ⊢)
      | cons c t =>
        by_cases hc : c = rbrace
        · simp only [pstep, if_pos hc, Option.some.injEq, Prod.mk.injEq] at h
          rw [← h.2]
          exact List.suffix_cons c t
        · simp only [pstep, if_neg hc] at h
          exact ih h
    | membersN acc =>
      cases cs with
      | nil => exact absurd h (by simp [pstep] at h ⊢)
      | cons c t =>
        by_cases hc : c = '"'
        · subst hc
          simp only [pstep] at h
          split at h
          · exact absurd h (by simp)
          · rename_i p k r2 hsb
            have hr2 : r2 <:+ t := strBody_suffix hsb
            split at h
            · rename_i r3 heq
              have hr3 : r3 <:+ t := (skipWs_cons_suffix heq).trans hr2
              split at h
              · exact absurd h (by simp)
              · rename_i q v1 r4 hv
                have hr4 : r4 <:+ t := ((ih hv).trans (skipWs_suffix r3)).trans hr3
                split at h
                · rename_i r5 heq3
                  exact ((ih h).trans ((skipWs_suffix r5).trans
                    ((skipWs_cons_suffix heq3).trans hr4))).trans
                    (List.suffix_cons '"' t)
                · rename_i c2 r5 hnc heq3
                  by_cases hz2 : c2 = rbrace
                  · rw [if_pos hz2] at h
                    simp only [Option.some.injEq, Prod.mk.injEq] at h
                    rw [← h.2]
                    exact ((skipWs_cons_suffix heq3).trans hr4).trans
                      (List.suffix_cons '"' t)
                  · rw [if_neg hz2] at h
                    exact absurd h (by simp)
                · exact absurd h (by simp)
            · exact absurd h (by simp)
        · rw [pstep_membersN_cons_ne hc] at h
          exact absurd h (by simp)

theorem allWs_of_skipWs_nil {r : List Char} (h : skipWs r = []) :
    allWs r = true := by
  induction r with
  | nil => rfl
  | cons c t ih =>
    rw [skipWs_cons] at h
    by_cases hc : isJsonWs c
    · rw [allWs_cons, hc, Bool.true_and]
      exact ih (by rwa [if_pos hc] at h)
    · rw [if_neg hc] at h
      exact absurd h (by simp)

theorem allWs_takeWhile_ws (x : List Char) :
    allWs (x.takeWhile isJsonWs) = true := by
  rw [allWs, List.all_eq_true]
  exact fun c hc => List.mem_takeWhile_imp hc

theorem allWs_reverse {x : List Char} : allWs x.reverse = allWs x :=
  List.all_reverse

theorem nonwsCount_skipWs (cs : List Char) :
    nonwsCount (skipWs cs) = nonwsCount cs := by
  conv_rhs => rw [← List.takeWhile_append_dropWhile isJsonWs cs]
  unfold nonwsCount skipWs
  rw [List.filter_append]
  have : (cs.takeWhile isJsonWs).filter (fun c => !(isJsonWs c)) = [] := by
    rw [List.filter_eq_nil_iff]
    intro a ha
    simp [List.mem_takeWhile_imp ha]
  rw [this, List.nil_append]

theorem nonwsCount_reverse (cs : List Char) :
    nonwsCount cs.reverse = nonwsCount cs := by
  unfold nonwsCount
  rw [List.filter_reverse, List.length_reverse]

theorem nonwsCount_rstrip (cs : List Char) :
    nonwsCount (rstripWs cs) = nonwsCount cs := by
  unfold rstripWs
  rw [nonwsCount_reverse, nonwsCount_skipWs, nonwsCount_reverse]

theorem nonwsCount_pyStrip (cs : List Char) :
    nonwsCount (pyStrip cs) = nonwsCount cs := by
  unfold pyStrip
  rw [nonwsCount_rstrip, nonwsCount_skipWs]

theorem rstrip_decomp (x : List Char) :
    x = rstripWs x ++ (x.reverse.takeWhile isJsonWs).reverse ∧
    allWs ((x.reverse.takeWhile isJsonWs).reverse) = true := by
  constructor
  · unfold rstripWs skipWs
    conv_lhs => rw [← List.reverse_reverse x,
      ← List.takeWhile_append_dropWhile isJsonWs x.reverse]
    rw [List.reverse_append]
  · rw [allWs_reverse]
    exact allWs_takeWhile_ws _

theorem rstrip_cons {c : Char} {t : List Char} (hc : isJsonWs c = false) :
    rstripWs (c :: t) = c :: rstripWs t := by
  unfold rstripWs skipWs
  rw [List.reverse_cons, List.dropWhile_append]
  cases hdw : List.dropWhile isJsonWs t.reverse with
  | nil => simp [List.dropWhile_cons, hc]
  | cons y ys => simp

theorem rstrip_append_allWs {a b : List Char} (hb : allWs b = true) :
    rstripWs (a ++ b) = rstripWs a := by
  unfold rstripWs skipWs
  rw [List.reverse_append, List.dropWhile_append,
    show List.dropWhile isJsonWs b.reverse = [] from
      skipWs_allWs (by rwa [allWs_reverse])]
  simp

/-- `json.loads` succeeds unchanged on the `str.strip()` of its input. -/
theorem pyParse_pyStrip {j : List Char} {v : J} (h : pyParse j = some v) :
    pyParse (pyStrip j) = some v := by
  unfold pyParse at h
  rcases hp : pstep (2 * nonwsCount j + 2) PMode.val (skipWs j) with _ | ⟨v0, r⟩
  · rw [hp] at h; exact absurd h (by simp)
  · rw [hp] at h
    dsimp only at h
    by_cases hr : skipWs r = []
    · rw [if_pos hr] at h
      have hv0 : v0 = v := by simpa using h
      subst hv0
      have hallr : allWs r = true := allWs_of_skipWs_nil hr
      obtain ⟨core, hcore⟩ := pstep_suffix hp
      -- `pstep` on `core` alone succeeds with empty rest
      have hcore_run : pstep (2 * nonwsCount j + 2) PMode.val core =
          some (v0, []) := by
        have := @pstep_append _ hallr (2 * nonwsCount j + 2) PMode.val core
        rw [hcore, hp] at this
        rcases hpc : pstep (2 * nonwsCount j + 2) PMode.val core with _ | ⟨v1, r1⟩
        · rw [hpc] at this; exact absurd this (by simp)
        · rw [hpc] at this
          simp only [Option.map_some', Option.some.injEq, Prod.mk.injEq] at this
          obtain ⟨hv1, hr1⟩ := this
          rw [hv1, show r1 = [] from List.append_left_eq_self.mp hr1.symm]
      -- the trailing whitespace of `core` is forced to be empty
      obtain ⟨hdec, hdecws⟩ := rstrip_decomp core
      have hwsnil : (core.reverse.takeWhile isJsonWs).reverse = [] ∧
          pstep (2 * nonwsCount j + 2) PMode.val (rstripWs core) =
            some (v0, []) := by
        have := @pstep_append _ hdecws (2 * nonwsCount j + 2) PMode.val
          (rstripWs core)
        rw [← hdec, hcore_run] at this
        rcases hpc : pstep (2 * nonwsCount j + 2) PMode.val (rstripWs core) with
          _ | ⟨v1, r1⟩
        · rw [hpc] at this; exact absurd this (by simp)
        · rw [hpc] at this
          simp only [Option.map_some', Option.some.injEq, Prod.mk.injEq] at this
          obtain ⟨hv1, hr1⟩ := this
          have : r1 = [] ∧ (core.reverse.takeWhile isJsonWs).reverse = [] := by
            have := congrArg List.length hr1
            simp only [List.length_append, List.length_nil] at this
            constructor <;>
              [exact List.length_eq_zero.mp (by omega);
               exact List.length_eq_zero.mp (by omega)]
          exact ⟨this.2, by rw [this.1, ← hv1]⟩
      -- head of `skipWs j` is not whitespace, so stripping keeps it
      rcases hu : skipWs j with _ | ⟨c, t⟩
      · rw [hu] at hp; exact absurd hp (by simp [pstep_val_nil])
      · have hcns : isJsonWs c = false := skipWs_head_not_ws hu
        have hstrip : pyStrip j = rstripWs core := by
          unfold pyStrip
          rw [hu, ← hu]
          rw [show skipWs j = core ++ r from by rw [hcore], rstrip_append_allWs hallr]
        -- compute the final parse
        unfold pyParse
        rw [nonwsCount_pyStrip, hstrip]
        have hrw : skipWs (rstripWs core) = rstripWs core := by
          rcases hco : rstripWs core with _ | ⟨c2, t2⟩
          · rfl
          · -- the head of `rstripWs core` equals the head of `core`,
            -- which is the non-whitespace head `c` of `skipWs j`
            rcases hcore2 : core with _ | ⟨c3, t3⟩
            · rw [hcore2] at hco; simp [rstripWs, skipWs] at hco
            · have hc3 : c3 = c := by
                rw [hcore2] at hcore
                cases hu2 : skipWs j
                · rw [hu2] at hu; cases hu
                · rw [hu2] at hcore hu
                  cases hcore
                  cases hu
                  rfl
              subst hc3
              rw [hcore2] at hco
              rw [rstrip_cons hcns] at hco
              cases hco
              rw [skipWs_cons, if_neg (by simp [hcns])]
        rw [hrw, hwsnil.2]
        simp [skipWs]
    · rw [if_neg hr] at h
      exact absurd h (by simp)

/-- `json.loads` succeeds unchanged when the text is padded with a leading
and a trailing newline. -/
theorem pyParse_wrapNl {j : List Char} {v : J} (h : pyParse j = some v) :
    pyParse ('\n' :: (j ++ ['\n'])) = some v := by
  unfold pyParse at h
  rcases hp : pstep (2 * nonwsCount j + 2) PMode.val (skipWs j) with _ | ⟨v0, r⟩
  · rw [hp] at h; exact absurd h (by simp)
  · rw [hp] at h
    dsimp only at h
    by_cases hr : skipWs r = []
    · rw [if_pos hr] at h
      have hv0 : v0 = v := by simpa using h
      subst hv0
      have hallr : allWs r = true := allWs_of_skipWs_nil hr
      rcases hu : skipWs j with _ | ⟨c, t⟩
      · rw [hu] at hp; exact absurd hp (by simp [pstep_val_nil])
      · unfold pyParse
        have hF : nonwsCount ('\n' :: (j ++ ['\n'])) = nonwsCount j := by
          unfold nonwsCount
          simp [List.filter_cons, List.filter_append, isJsonWs]
        rw [hF]
        have hsw : skipWs ('\n' :: (j ++ ['\n'])) = skipWs j ++ ['\n'] := by
          rw [skipWs_cons, if_pos (by decide), skipWs_append (by decide), hu]
          simp
        rw [hsw]
        rw [pstep_append (by decide), hp]
        simp only [Option.map_some']
        rw [show skipWs (r ++ ['\n']) = [] from skipWs_allWs
          (by unfold allWs at hallr ⊢; rw [List.all_append, hallr]; decide)]
        simp
    · rw [if_neg hr] at h
      exact absurd h (by simp)

theorem nil_isPrefixOf (x : List Char) : ([] : List Char).isPrefixOf x = true := by
  cases x <;> rfl

theorem isPrefixOf_nil_eq {p : List Char} (hp : p ≠ []) :
    p.isPrefixOf ([] : List Char) = false := by
  cases p with
  | nil => exact absurd rfl hp
  | cons q qs => rfl

theorem occursG_cons {p : List Char} {c : Char} {t : List Char} :
    occursG p (c :: t) = (p.isPrefixOf (c :: t) || occursG p t) := rfl

theorem occursG_of_isPrefixOf {p cs : List Char}
    (h : p.isPrefixOf cs = true) : occursG p cs = true := by
  cases cs with
  | nil => exact h
  | cons c t => rw [occursG_cons, h, Bool.true_or]

theorem occursG_tail {p : List Char} {c : Char} {t : List Char}
    (h : occursG p t = true) : occursG p (c :: t) = true := by
  rw [occursG_cons, h, Bool.or_true]

theorem isPrefixOf_append_mono {p x y : List Char}
    (h : p.isPrefixOf x = true) : p.isPrefixOf (x ++ y) = true := by
  rw [List.isPrefixOf_iff_prefix] at h ⊢
  exact h.trans (List.prefix_append x y)

theorem occursG_append_right {p a b : List Char}
    (h : occursG p b = true) : occursG p (a ++ b) = true := by
  induction a with
  | nil => exact h
  | cons c a2 ih => exact occursG_tail ih

theorem occursG_append_left {p a b : List Char}
    (h : occursG p a = true) : occursG p (a ++ b) = true := by
  induction a with
  | nil =>
    have : p = [] := by
      rw [show occursG p [] = p.isPrefixOf [] from rfl,
        List.isPrefixOf_iff_prefix] at h
      exact List.prefix_nil.mp h
    subst this
    exact occursG_of_isPrefixOf (nil_isPrefixOf _)
  | cons c a2 ih =>
    rw [occursG_cons, Bool.or_eq_true] at h
    rcases h with h | h
    · exact occursG_of_isPrefixOf (isPrefixOf_append_mono h)
    · exact occursG_tail (ih h)

theorem occursG_prefix_mono {q p cs : List Char}
    (hqp : q.isPrefixOf p = true) (h : occursG p cs = true) :
    occursG q cs = true := by
  induction cs with
  | nil =>
    rw [show occursG p [] = p.isPrefixOf [] from rfl,
      List.isPrefixOf_iff_prefix] at h
    rw [List.prefix_nil.mp h, List.isPrefixOf_iff_prefix, List.prefix_nil] at hqp
    rw [hqp]
    rfl
  | cons c t ih =>
    rw [occursG_cons, Bool.or_eq_true] at h
    rcases h with h | h
    · refine occursG_of_isPrefixOf ?_
      rw [List.isPrefixOf_iff_prefix] at hqp h ⊢
      exact hqp.trans h
    · exact occursG_tail (ih h)

theorem prefix_through_newline {p a b : List Char}
    (hnl : '\n' ∉ p) (h : p.isPrefixOf (a ++ '\n' :: b) = true) :
    occursG p a = true := by
  rw [List.isPrefixOf_iff_prefix] at h
  obtain ⟨t, ht⟩ := h
  rcases List.append_eq_append_iff.mp ht with ⟨a2, ha1, _⟩ | ⟨c2, hc1, hc2⟩
  · exact occursG_of_isPrefixOf
      (List.isPrefixOf_iff_prefix.mpr ⟨a2, ha1.symm⟩)
  · cases c2 with
    | nil =>
      rw [List.append_nil] at hc1
      exact occursG_of_isPrefixOf
        (List.isPrefixOf_iff_prefix.mpr (hc1 ▸ List.prefix_refl a))
    | cons x c3 =>
      rw [List.cons_append, List.cons.injEq] at hc2
      exfalso
      apply hnl
      rw [hc1, ← hc2.1]
      simp

theorem prefix_newline_head {p b : List Char} (hp : p ≠ []) (hnl : '\n' ∉ p) :
    p.isPrefixOf ('\n' :: b) = false := by
  cases p with
  | nil => exact absurd rfl hp
  | cons q qs =>
    by_cases hq : q = '\n'
    · exact absurd (by rw [hq]; exact List.mem_cons_self _ _) hnl
    · simp [List.isPrefixOf, hq]

theorem occursG_newline_split {p a b : List Char} (hp : p ≠ [])
    (hnl : '\n' ∉ p) (h : occursG p (a ++ '\n' :: b) = true) :
    occursG p a = true ∨ occursG p b = true := by
  induction a with
  | nil =>
    rw [List.nil_append, occursG_cons, Bool.or_eq_true] at h
    rcases h with h | h
    · rw [prefix_newline_head hp hnl] at h
      cases h
    · exact Or.inr h
  | cons c a2 ih =>
    rw [List.cons_append, occursG_cons, Bool.or_eq_true] at h
    rcases h with h | h
    · exact Or.inl (prefix_through_newline hnl (by rwa [← List.cons_append] at h))
    · rcases ih h with h2 | h2
      · exact Or.inl (occursG_tail h2)
      · exact Or.inr h2

theorem occursG_dropWhile {p : List Char} {q : Char → Bool} {x : List Char}
    (h : occursG p (x.dropWhile q) = true) : occursG p x = true := by
  conv_lhs => rw [← List.takeWhile_append_dropWhile q x]
  exact occursG_append_right h

theorem occursG_rstrip {p x : List Char}
    (h : occursG p (rstripWs x) = true) : occursG p x = true := by
  obtain ⟨hdec, _⟩ := rstrip_decomp x
  conv_lhs => rw [hdec]
  exact occursG_append_left h

theorem occursG_pyStrip {p x : List Char}
    (h : occursG p (pyStrip x) = true) : occursG p x = true :=
  occursG_dropWhile (occursG_rstrip h)

theorem replF_no_occur {p : List Char} {f : Nat} {cs : List Char}
    (h : occursG p cs = false) : replF p f cs = cs := by
  induction f generalizing cs with
  | zero => rfl
  | succ f ih =>
    have hpre : p.isPrefixOf cs = false := by
      by_cases hb : p.isPrefixOf cs = true
      · rw [occursG_of_isPrefixOf hb] at h; cases h
      · exact Bool.eq_false_iff.mpr hb
    simp only [replF, hpre, Bool.false_eq_true, if_false]
    cases cs with
    | nil => rfl
    | cons c t =>
      have ht : occursG p t = false := by
        by_cases hb : occursG p t = true
        · rw [occursG_tail hb] at h; cases h
        · exact Bool.eq_false_iff.mpr hb
      change c :: replF p f t = c :: t
      rw [ih ht]

theorem removeAll_no_occur {p cs : List Char}
    (h : occursG p cs = false) : removeAll p cs = cs :=
  replF_no_occur h

theorem replF_fuelIrrel {p : List Char} (hp : p ≠ []) :
    ∀ {f g : Nat} {cs : List Char}, cs.length ≤ f → cs.length ≤ g →
    replF p f cs = replF p g cs := by
  intro f
  induction f with
  | zero =>
    intro g cs hf hg
    have : cs = [] := List.length_eq_zero.mp (Nat.le_zero.mp hf)
    subst this
    cases g with
    | zero => rfl
    | succ g => simp [replF, isPrefixOf_nil_eq hp]
  | succ f ih =>
    intro g cs hf hg
    cases g with
    | zero =>
      have : cs = [] := List.length_eq_zero.mp (Nat.le_zero.mp hg)
      subst this
      simp [replF, isPrefixOf_nil_eq hp]
    | succ g =>
      simp only [replF]
      by_cases hpre : p.isPrefixOf cs
      · rw [if_pos hpre, if_pos hpre]
        have hlp : 1 ≤ p.length := by
          cases p with
          | nil => exact absurd rfl hp
          | cons q qs => simp
        have hlcs : p.length ≤ cs.length := by
          rw [List.isPrefixOf_iff_prefix] at hpre
          exact hpre.length_le
        exact ih (by simp; omega) (by simp; omega)
      · rw [if_neg hpre, if_neg hpre]
        cases cs with
        | nil => rfl
        | cons c t =>
          simp only [List.length_cons, Nat.succ_le_succ_iff] at hf hg
          change c :: replF p f t = c :: replF p g t
          rw [ih hf hg]

theorem removeAll_head_match {p rest : List Char} (hp : p ≠ []) :
    removeAll p (p ++ rest) = removeAll p rest := by
  unfold removeAll
  have hlp : 1 ≤ p.length := by
    cases p with
    | nil => exact absurd rfl hp
    | cons q qs => simp
  have h1 : p.isPrefixOf (p ++ rest) = true :=
    List.isPrefixOf_iff_prefix.mpr (List.prefix_append p rest)
  obtain ⟨n, hn⟩ : ∃ n, (p ++ rest).length = n + 1 :=
    ⟨(p ++ rest).length - 1, by simp [List.length_append]; omega⟩
  rw [hn]
  simp only [replF, h1, if_pos]
  rw [List.drop_left]
  refine replF_fuelIrrel hp ?_ le_rfl
  rw [List.length_append] at hn
  omega

theorem replF_newline_block {p : List Char} (hp : p ≠ []) (hnl : '\n' ∉ p) :
    ∀ {a : List Char} {g : Nat} {b : List Char}, occursG p a = false →
    replF p (a.length + g + 1) (a ++ '\n' :: b) = a ++ '\n' :: replF p g b := by
  intro a
  induction a with
  | nil =>
    intro g b _
    simp only [List.length_nil, List.nil_append, Nat.zero_add]
    simp only [replF, prefix_newline_head hp hnl, Bool.false_eq_true, if_false]
  | cons c a2 ih =>
    intro g b hocc
    have hocc2 : occursG p a2 = false := by
      by_cases hb : occursG p a2 = true
      · rw [occursG_tail hb] at hocc; cases hocc
      · exact Bool.eq_false_iff.mpr hb
    have hpre : p.isPrefixOf ((c :: a2) ++ '\n' :: b) = false := by
      by_cases hb : p.isPrefixOf ((c :: a2) ++ '\n' :: b) = true
      · rw [prefix_through_newline hnl hb] at hocc; cases hocc
      · exact Bool.eq_false_iff.mpr hb
    have hL : (c :: a2).length + g + 1 = (a2.length + g + 1) + 1 := by
      simp only [List.length_cons]
      omega
    rw [hL, List.cons_append]
    simp only [replF]
    rw [show p.isPrefixOf (c :: (a2 ++ '\n' :: b)) = false from by
      rwa [← List.cons_append]]
    simp only [Bool.false_eq_true, if_false]
    change c :: replF p (a2.length + g + 1) (a2 ++ '\n' :: b) =
      (c :: a2) ++ '\n' :: replF p g b
    rw [ih hocc2, List.cons_append]

theorem removeAll_newline_block {p a b : List Char} (hp : p ≠ [])
    (hnl : '\n' ∉ p) (hocc : occursG p a = false) :
    removeAll p (a ++ '\n' :: b) = a ++ '\n' :: removeAll p b := by
  unfold removeAll
  have hL : (a ++ '\n' :: b).length = a.length + b.length + 1 := by
    simp [List.length_append]
    omega
  rw [hL]
  exact replF_newline_block hp hnl hocc

theorem isPrefixOf_append_newline {p m rest : List Char} (hnl : '\n' ∉ p) :
    p.isPrefixOf (m ++ '\n' :: rest) = p.isPrefixOf m := by
  by_cases h : p.isPrefixOf m = true
  · rw [h, isPrefixOf_append_mono h]
  · have h2 : p.isPrefixOf (m ++ '\n' :: rest) = false := by
      by_cases hb : p.isPrefixOf (m ++ '\n' :: rest) = true
      · exfalso
        rw [List.isPrefixOf_iff_prefix] at hb
        obtain ⟨t, ht⟩ := hb
        rcases List.append_eq_append_iff.mp ht with ⟨a2, ha1, _⟩ | ⟨c2, hc1, hc2⟩
        · exact h (List.isPrefixOf_iff_prefix.mpr ⟨a2, ha1.symm⟩)
        · cases c2 with
          | nil =>
            rw [List.append_nil] at hc1
            exact h (List.isPrefixOf_iff_prefix.mpr (hc1 ▸ List.prefix_refl m))
          | cons x c3 =>
            rw [List.cons_append, List.cons.injEq] at hc2
            exact hnl (by rw [hc1, ← hc2.1]; simp)
      · exact Bool.eq_false_iff.mpr hb
    rw [h2, Bool.eq_false_iff.mpr h]

theorem isPrefixOf_append_left_len {p : List Char} :
    ∀ {x : List Char} (y : List Char), p.length ≤ x.length →
    p.isPrefixOf (x ++ y) = p.isPrefixOf x := by
  induction p with
  | nil => intro x y _; rw [nil_isPrefixOf, nil_isPrefixOf]
  | cons q ps ih =>
    intro x y hl
    cases x with
    | nil => simp at hl
    | cons a xs =>
      simp only [List.length_cons, Nat.succ_le_succ_iff] at hl
      simp only [List.cons_append, List.isPrefixOf]
      exact congrArg (fun b => (q == a) && b) (ih y hl)

theorem isPrefixOf_short {p x : List Char} (h : x.length < p.length) :
    p.isPrefixOf x = false := by
  by_cases hb : p.isPrefixOf x = true
  · rw [List.isPrefixOf_iff_prefix] at hb
    exact absurd hb.length_le (by omega)
  · exact Bool.eq_false_iff.mpr hb

theorem rsubF_nil : ∀ (f : Nat) (b : Bool), rsubF f b [] = [] := by
  intro f b
  cases f with
  | zero => rfl
  | succ f =>
    simp only [rsubF]
    rw [show fenceJson.isPrefixOf ([] : List Char) = false from rfl,
      show fence3.isPrefixOf ([] : List Char) = false from rfl]
    simp

theorem rsubF_fuelIrrel :
    ∀ {f g : Nat} {b : Bool} {cs : List Char}, cs.length ≤ f → cs.length ≤ g →
    rsubF f b cs = rsubF g b cs := by
  intro f
  induction f with
  | zero =>
    intro g b cs hf hg
    have : cs = [] := List.length_eq_zero.mp (Nat.le_zero.mp hf)
    subst this
    rw [rsubF_nil, rsubF_nil]
  | succ f ih =>
    intro g b cs hf hg
    cases g with
    | zero =>
      have : cs = [] := List.length_eq_zero.mp (Nat.le_zero.mp hg)
      subst this
      rw [rsubF_nil, rsubF_nil]
    | succ g =>
      simp only [rsubF]
      by_cases h1 : (b && fenceJson.isPrefixOf cs) = true
      · rw [if_pos h1, if_pos h1]
        exact ih (by simp [List.length_drop]; omega) (by simp [List.length_drop]; omega)
      · rw [if_neg h1, if_neg h1]
        by_cases h2 : (fence3.isPrefixOf cs &&
            ((cs.drop 3).isEmpty || (cs.drop 3).head? = some '\n')) = true
        · rw [if_pos h2, if_pos h2]
          exact ih (by simp [List.length_drop]; omega) (by simp [List.length_drop]; omega)
        · rw [if_neg h2, if_neg h2]
          cases cs with
          | nil => rfl
          | cons c t =>
            simp only [List.length_cons, Nat.succ_le_succ_iff] at hf hg
            change c :: rsubF f (c = '\n') t = c :: rsubF g (c = '\n') t
            rw [ih hf hg]

theorem rs3_nil : removeSuffix3 [] = [] := rfl

theorem rs3_fence3 : removeSuffix3 fence3 = [] := by decide

theorem rs3_cons {c : Char} {m : List Char} (h : c :: m ≠ fence3) :
    removeSuffix3 (c :: m) = c :: removeSuffix3 m := by
  unfold removeSuffix3
  rw [show (c :: m).reverse = m.reverse ++ [c] from by simp]
  by_cases hp : fence3.isPrefixOf m.reverse = true
  · have hlf : fence3.length ≤ m.reverse.length :=
      (List.isPrefixOf_iff_prefix.mp hp).length_le
    have hl3 : 3 ≤ m.reverse.length := by
      rw [show fence3.length = 3 from rfl] at hlf
      exact hlf
    rw [isPrefixOf_append_left_len [c] hlf, hp, if_pos rfl, if_pos rfl]
    rw [List.drop_append_of_le_length hl3]
    simp
  · have hq : fence3.isPrefixOf (m.reverse ++ [c]) = false := by
      by_cases hlen : fence3.length ≤ m.reverse.length
      · rw [isPrefixOf_append_left_len [c] hlen]
        exact Bool.eq_false_iff.mpr hp
      · rw [show fence3.length = 3 from rfl] at hlen
        by_cases hl2 : m.reverse.length + 1 < 3
        · exact isPrefixOf_short (by
            rw [show fence3.length = 3 from rfl]
            simp at hl2 ⊢
            omega)
        · have hlen3 : (m.reverse ++ [c]).length = 3 := by
            simp at hlen hl2 ⊢
            omega
          by_cases hb : fence3.isPrefixOf (m.reverse ++ [c]) = true
          · exfalso
            apply h
            rw [List.isPrefixOf_iff_prefix] at hb
            have he : m.reverse ++ [c] = fence3 :=
              (hb.eq_of_length (by rw [hlen3]; rfl)).symm
            calc c :: m = (m.reverse ++ [c]).reverse := by simp
              _ = fence3.reverse := by rw [he]
              _ = fence3 := by decide
          · exact Bool.eq_false_iff.mpr hb
    rw [hq, Bool.eq_false_iff.mpr hp]
    simp

theorem rsubF_at_newline {f : Nat} {rest : List Char}
    (hf : rest.length + 1 ≤ f) :
    rsubF f false ('\n' :: rest) = '\n' :: rsubF rest.length true rest := by
  cases f with
  | zero => omega
  | succ f =>
    simp only [rsubF, Bool.false_and, Bool.false_eq_true, if_false]
    rw [prefix_newline_head (by decide) (by decide), Bool.false_and]
    simp only [Bool.false_eq_true, if_false]
    change '\n' :: rsubF f ('\n' = '\n') rest = '\n' :: rsubF rest.length true rest
    rw [show (decide ('\n' = '\n')) = true from by decide]
    rw [rsubF_fuelIrrel (Nat.le_of_succ_le_succ hf) le_rfl]

theorem fence3_cond_false {m : List Char} (rest2 : List Char)
    (hnl : '\n' ∉ m) (hm : m ≠ fence3)
    (hr : rest2 = [] ∨ rest2.head? = some '\n') :
    (fence3.isPrefixOf (m ++ rest2) &&
      (((m ++ rest2).drop 3).isEmpty ||
        ((m ++ rest2).drop 3).head? = some '\n')) = false := by
  by_cases hp : fence3.isPrefixOf m = true
  · rw [List.isPrefixOf_iff_prefix] at hp
    obtain ⟨m2, hm2⟩ := hp
    have hdrop : (m ++ rest2).drop 3 = m2 ++ rest2 := by
      rw [← hm2, List.append_assoc]
      rw [show (3 : Nat) = fence3.length from rfl, List.drop_left]
    cases m2 with
    | nil => exact absurd (by rw [← hm2]; simp) hm
    | cons d m3 =>
      have hd : d ≠ '\n' := by
        intro hdn
        exact hnl (by rw [← hm2, hdn]; simp)
      rw [hdrop]
      simp [hd]
  · have hp2 : fence3.isPrefixOf (m ++ rest2) = false := by
      by_cases hlen : fence3.length ≤ m.length
      · rw [isPrefixOf_append_left_len rest2 hlen]
        exact Bool.eq_false_iff.mpr hp
      · rw [show fence3.length = 3 from rfl] at hlen
        by_cases hb : fence3.isPrefixOf (m ++ rest2) = true
        · exfalso
          rw [List.isPrefixOf_iff_prefix] at hb
          obtain ⟨t, ht⟩ := hb
          rcases List.append_eq_append_iff.mp ht with ⟨a2, ha1, _⟩ | ⟨c2, hc1, hc2⟩
          · have := congrArg List.length ha1
            simp [fence3] at this
            omega
          · cases c2 with
            | nil =>
              rw [List.append_nil] at hc1
              exact hm hc1.symm
            | cons x c3 =>
              have hx : x = '`' := by
                have hxm : x ∈ fence3 := by rw [hc1]; simp
                simpa [fence3] using hxm
              rcases hr with hr | hr
              · rw [hr] at hc2
                cases hc2
              · rw [hc2] at hr
                rw [List.cons_append] at hr
                simp [hx] at hr
        · exact Bool.eq_false_iff.mpr hb
    rw [hp2, Bool.false_and]

theorem rsubF_lastline : ∀ {m : List Char} {f : Nat}, '\n' ∉ m →
    m.length ≤ f → rsubF f false m = removeSuffix3 m := by
  intro m
  induction m with
  | nil => intro f _ _; rw [rsubF_nil, rs3_nil]
  | cons c t ih =>
    intro f hnl hf
    cases f with
    | zero => simp at hf
    | succ f =>
      by_cases hm : c :: t = fence3
      · rw [hm, rs3_fence3]
        simp only [rsubF, Bool.false_and, Bool.false_eq_true, if_false]
        rw [show (fence3.isPrefixOf fence3 &&
            ((fence3.drop 3).isEmpty || (fence3.drop 3).head? = some '\n')) = true
          from by decide]
        simp only [if_true]
        rw [show fence3.drop 3 = [] from by decide, rsubF_nil]
      · have hc2 := fence3_cond_false [] hnl hm (Or.inl rfl)
        rw [List.append_nil] at hc2
        simp only [rsubF, Bool.false_and, Bool.false_eq_true, if_false]
        rw [hc2]
        simp only [Bool.false_eq_true, if_false]
        have hcn : c ≠ '\n' := fun he => hnl (he ▸ List.mem_cons_self c t)
        change c :: rsubF f (c = '\n') t = removeSuffix3 (c :: t)
        rw [show (decide (c = '\n')) = false from by simp [hcn]]
        rw [ih (fun hx => hnl (List.mem_cons_of_mem c hx))
          (Nat.le_of_succ_le_succ hf)]
        rw [rs3_cons hm]

theorem rsubF_midline : ∀ {m : List Char} {f : Nat} {rest : List Char},
    '\n' ∉ m → (m ++ '\n' :: rest).length ≤ f →
    rsubF f false (m ++ '\n' :: rest) =
      removeSuffix3 m ++ '\n' :: rsubF rest.length true rest := by
  intro m
  induction m with
  | nil =>
    intro f rest _ hf
    rw [List.nil_append, rs3_nil, List.nil_append]
    exact rsubF_at_newline (by simpa using hf)
  | cons c t ih =>
    intro f rest hnl hf
    cases f with
    | zero => simp at hf
    | succ f =>
      by_cases hm : c :: t = fence3
      · rw [hm, rs3_fence3, List.nil_append]
        simp only [rsubF, Bool.false_and, Bool.false_eq_true, if_false]
        rw [show (fence3.isPrefixOf (fence3 ++ '\n' :: rest) &&
            (((fence3 ++ '\n' :: rest).drop 3).isEmpty ||
              ((fence3 ++ '\n' :: rest).drop 3).head? = some '\n')) = true from by
          rw [show (3 : Nat) = fence3.length from rfl, List.drop_left,
            isPrefixOf_append_mono (by decide)]
          simp]
        simp only [if_true]
        rw [show (3 : Nat) = fence3.length from rfl, List.drop_left]
        have hlen : rest.length + 1 ≤ f := by
          rw [hm] at hf
          simp [fence3] at hf
          omega
        exact rsubF_at_newline hlen
      · have hc2 := fence3_cond_false ('\n' :: rest) hnl hm (Or.inr rfl)
        rw [List.cons_append]
        simp only [rsubF, Bool.false_and, Bool.false_eq_true, if_false]
        rw [← List.cons_append, hc2]
        simp only [Bool.false_eq_true, if_false]
        have hcn : c ≠ '\n' := fun he => hnl (he ▸ List.mem_cons_self c t)
        rw [show (decide (c = '\n')) = false from by simp [hcn]]
        rw [ih (fun hx => hnl (List.mem_cons_of_mem c hx))
          (by simp at hf ⊢; omega)]
        rw [rs3_cons hm, List.cons_append]

theorem rsubF_true_false {f : Nat} {cs : List Char}
    (h : fenceJson.isPrefixOf cs = false) :
    rsubF (f + 1) true cs = rsubF (f + 1) false cs := by
  simp only [rsubF, h, Bool.and_false, Bool.false_and, Bool.true_and]

theorem lineClean_of_not_fenceJson {m : List Char}
    (h : fenceJson.isPrefixOf m = false) : lineClean m = removeSuffix3 m := by
  unfold lineClean
  rw [h]
  simp

theorem rsubF_linestart {m : List Char} {f : Nat} {rest : List Char}
    (hnl : '\n' ∉ m) (hf : (m ++ '\n' :: rest).length ≤ f) :
    rsubF f true (m ++ '\n' :: rest) =
      lineClean m ++ '\n' :: rsubF rest.length true rest := by
  cases f with
  | zero => simp at hf
  | succ f =>
    by_cases hj : fenceJson.isPrefixOf m = true
    · have hj2 := hj
      rw [List.isPrefixOf_iff_prefix] at hj2
      obtain ⟨m2, hm2⟩ := hj2
      have hja : fenceJson.isPrefixOf (m ++ '\n' :: rest) = true :=
        isPrefixOf_append_mono hj
      simp only [rsubF, hja, Bool.and_true, Bool.true_and, if_true]
      have hdrop : (m ++ '\n' :: rest).drop 7 = m2 ++ '\n' :: rest := by
        rw [← hm2, List.append_assoc,
          show (7 : Nat) = fenceJson.length from rfl, List.drop_left]
      rw [hdrop]
      have hnl2 : '\n' ∉ m2 := fun hx => hnl (by rw [← hm2]; simp [hx])
      rw [rsubF_midline hnl2 (by rw [← hm2] at hf; simp [fenceJson] at hf ⊢; omega)]
      unfold lineClean
      rw [hj]
      simp only [if_true]
      rw [show m.drop 7 = m2 from by
        rw [← hm2, show (7 : Nat) = fenceJson.length from rfl, List.drop_left]]
    · have hja : fenceJson.isPrefixOf (m ++ '\n' :: rest) = false := by
        rw [isPrefixOf_append_newline (by decide)]
        exact Bool.eq_false_iff.mpr hj
      rw [rsubF_true_false hja,
        rsubF_midline hnl hf,
        lineClean_of_not_fenceJson (Bool.eq_false_iff.mpr hj)]

theorem rsubF_linestart_last {m : List Char} {f : Nat}
    (hnl : '\n' ∉ m) (hf : m.length ≤ f) :
    rsubF f true m = lineClean m := by
  cases m with
  | nil =>
    rw [rsubF_nil]
    rfl
  | cons c t =>
    cases f with
    | zero => simp at hf
    | succ f =>
      by_cases hj : fenceJson.isPrefixOf (c :: t) = true
      · have hj2 := hj
        rw [List.isPrefixOf_iff_prefix] at hj2
        obtain ⟨m2, hm2⟩ := hj2
        simp only [rsubF, hj, Bool.and_true, Bool.true_and, if_true]
        have hdrop : (c :: t).drop 7 = m2 := by
          rw [← hm2, show (7 : Nat) = fenceJson.length from rfl, List.drop_left]
        rw [hdrop]
        have hnl2 : '\n' ∉ m2 := fun hx => hnl (by rw [← hm2]; simp [hx])
        rw [rsubF_lastline hnl2 (by rw [← hm2] at hf; simp [fenceJson] at hf ⊢; omega)]
        unfold lineClean
        rw [hj]
        simp only [if_true]
        rw [hdrop]
      · rw [rsubF_true_false (Bool.eq_false_iff.mpr hj),
          rsubF_lastline hnl hf,
          lineClean_of_not_fenceJson (Bool.eq_false_iff.mpr hj)]

theorem splitNl_ne_nil : ∀ (cs : List Char), splitNl cs ≠ [] := by
  intro cs
  cases cs with
  | nil => simp [splitNl]
  | cons c t =>
    simp only [splitNl]
    by_cases hc : c = '\n'
    · simp [hc]
    · rw [if_neg hc]
      cases splitNl t <;> simp

theorem splitNl_nonl : ∀ {m : List Char}, '\n' ∉ m → splitNl m = [m] := by
  intro m
  induction m with
  | nil => intro _; rfl
  | cons c t ih =>
    intro h
    have hc : c ≠ '\n' := fun he => h (he ▸ List.mem_cons_self c t)
    simp only [splitNl, if_neg hc]
    rw [ih (fun hx => h (List.mem_cons_of_mem c hx))]

theorem splitNl_break : ∀ {m : List Char} (rest : List Char), '\n' ∉ m →
    splitNl (m ++ '\n' :: rest) = m :: splitNl rest := by
  intro m
  induction m with
  | nil => intro rest _; simp [splitNl]
  | cons c t ih =>
    intro rest h
    have hc : c ≠ '\n' := fun he => h (he ▸ List.mem_cons_self c t)
    rw [List.cons_append]
    simp only [splitNl, if_neg hc]
    rw [ih rest (fun hx => h (List.mem_cons_of_mem c hx))]

theorem joinNl_cons {l : List Char} {ls : List (List Char)} (h : ls ≠ []) :
    joinNl (l :: ls) = l ++ '\n' :: joinNl ls := by
  cases ls with
  | nil => exact absurd rfl h
  | cons x xs => rfl

theorem mem_takeWhile_sat {p : Char → Bool} :
    ∀ {l : List Char} {x : Char}, x ∈ l.takeWhile p → p x = true := by
  intro l
  induction l with
  | nil => intro x h; simp [List.takeWhile] at h
  | cons c t ih =>
    intro x h
    rw [List.takeWhile_cons] at h
    by_cases hc : p c = true
    · rw [if_pos hc] at h
      rcases List.mem_cons.mp h with he | ht
      · exact he ▸ hc
      · exact ih ht
    · rw [if_neg hc] at h
      simp at h

theorem dropWhile_head_false {p : Char → Bool} :
    ∀ {l : List Char} {d : Char} {rest : List Char},
    l.dropWhile p = d :: rest → p d = false := by
  intro l
  induction l with
  | nil => intro d rest h; cases h
  | cons c t ih =>
    intro d rest h
    rw [List.dropWhile_cons] at h
    by_cases hc : p c = true
    · rw [if_pos hc] at h
      exact ih h
    · rw [if_neg hc] at h
      cases h
      exact Bool.eq_false_iff.mpr hc

/-- The regex substitution of `ensure_dict` acts on every line: it equals
splitting at newlines, removing one leading three-backtick-`json` marker
and one trailing three-backtick marker on each line, and rejoining. -/
theorem rsubFence_lines (cs : List Char) :
    rsubFence cs = joinNl ((splitNl cs).map lineClean) := by
  suffices h : ∀ (n : Nat) (cs : List Char), cs.length ≤ n →
      rsubFence cs = joinNl ((splitNl cs).map lineClean) from
    h cs.length cs le_rfl
  intro n
  induction n with
  | zero =>
    intro cs h
    have : cs = [] := List.length_eq_zero.mp (Nat.le_zero.mp h)
    subst this
    rfl
  | succ n ih =>
    intro cs h
    rcases hd : cs.dropWhile (fun c => !(c == '\n')) with _ | ⟨d, rest⟩
    · have hdec : cs = cs.takeWhile (fun c => !(c == '\n')) := by
        conv_lhs => rw [← List.takeWhile_append_dropWhile (fun c => !(c == '\n')) cs]
        rw [hd, List.append_nil]
      have hnl : '\n' ∉ cs.takeWhile (fun c => !(c == '\n')) := by
        intro hx
        have := mem_takeWhile_sat hx
        simp at this
      rw [hdec, splitNl_nonl hnl]
      unfold rsubFence
      rw [rsubF_linestart_last hnl le_rfl]
      rfl
    · have hdn : d = '\n' := by
        have := dropWhile_head_false hd
        simpa using this
      subst hdn
      have hdec : cs = cs.takeWhile (fun c => !(c == '\n')) ++ '\n' :: rest := by
        conv_lhs => rw [← List.takeWhile_append_dropWhile (fun c => !(c == '\n')) cs]
        rw [hd]
      have hnl : '\n' ∉ cs.takeWhile (fun c => !(c == '\n')) := by
        intro hx
        have := mem_takeWhile_sat hx
        simp at this
      have hrest : rest.length ≤ n := by
        have := congrArg List.length hdec
        simp at this
        omega
      rw [hdec, splitNl_break rest hnl]
      unfold rsubFence
      rw [rsubF_linestart hnl le_rfl]
      rw [List.map_cons,
        joinNl_cons (by
          intro hx
          exact splitNl_ne_nil rest (List.map_eq_nil_iff.mp hx))]
      have := ih rest hrest
      unfold rsubFence at this
      rw [this]

theorem skipWs_cons_nonws {c : Char} {t : List Char} (hc : isJsonWs c = false) :
    skipWs (c :: t) = c :: t := by
  rw [skipWs_cons, if_neg (by simp [hc])]

theorem rstrip_append_nonws {x : List Char} {d : Char}
    (hd : isJsonWs d = false) : rstripWs (x ++ [d]) = x ++ [d] := by
  unfold rstripWs
  rw [show (x ++ [d]).reverse = d :: x.reverse from by simp]
  rw [skipWs_cons_nonws hd]
  simp

theorem pyStrip_wrapFence (j : List Char) :
    pyStrip (wrapFence j) = wrapFence j := by
  unfold pyStrip
  rw [show wrapFence j =
      '`' :: (['`', '`', 'j', 's', 'o', 'n'] ++ ('\n' :: j ++ '\n' :: fence3))
    from rfl]
  rw [skipWs_cons_nonws (by decide)]
  rw [show '`' :: (['`', '`', 'j', 's', 'o', 'n'] ++ ('\n' :: j ++ '\n' :: fence3)) =
      (('`' :: (['`', '`', 'j', 's', 'o', 'n'] ++ ('\n' :: j ++ '\n' :: ['`', '`']))) ++ ['`'])
    from by simp [fence3]]
  rw [rstrip_append_nonws (by decide)]

theorem occursG_cons_newline {p : List Char} {j : List Char} (hp : p ≠ [])
    (hnl : '\n' ∉ p) (h : occursG p j = false) :
    occursG p ('\n' :: j) = false := by
  rw [occursG_cons, prefix_newline_head hp hnl, h]
  rfl

/-- On a well-formed JSON text with no three-backtick substring,
`clean_json_output` only strips the surrounding whitespace. -/
theorem clean_no_fence {j : List Char} (h : occursG fence3 j = false) :
    clean_json_output j = pyStrip j := by
  have h3 : occursG fence3 (pyStrip j) = false := by
    by_cases hb : occursG fence3 (pyStrip j) = true
    · rw [occursG_pyStrip hb] at h; cases h
    · exact Bool.eq_false_iff.mpr hb
  have h7 : occursG fenceJson (pyStrip j) = false := by
    by_cases hb : occursG fenceJson (pyStrip j) = true
    · rw [occursG_prefix_mono (by decide) hb] at h3; cases h3
    · exact Bool.eq_false_iff.mpr hb
  unfold clean_json_output
  rw [removeAll_no_occur h7, removeAll_no_occur h3]

/-- `clean_json_output` on a fenced well-formed JSON text (no three-backtick
substring of its own) removes the fence markers, leaving the JSON text
surrounded by the fence newlines. -/
theorem clean_wrapFence {j : List Char} (h : occursG fence3 j = false) :
    clean_json_output (wrapFence j) = '\n' :: (j ++ ['\n']) := by
  have hne3 : fence3 ≠ ([] : List Char) := by decide
  have hnl3 : '\n' ∉ fence3 := by decide
  have hne7 : fenceJson ≠ ([] : List Char) := by decide
  have hnl7 : '\n' ∉ fenceJson := by decide
  have hj7 : occursG fenceJson j = false := by
    by_cases hb : occursG fenceJson j = true
    · rw [occursG_prefix_mono (by decide) hb] at h; cases h
    · exact Bool.eq_false_iff.mpr hb
  unfold clean_json_output
  rw [pyStrip_wrapFence]
  rw [show wrapFence j = fenceJson ++ ('\n' :: j ++ '\n' :: fence3) from rfl]
  rw [removeAll_head_match hne7]
  have hocc7 : occursG fenceJson ('\n' :: j ++ '\n' :: fence3) = false := by
    rw [show ('\n' :: j ++ '\n' :: fence3) = '\n' :: (j ++ '\n' :: fence3) from rfl]
    refine occursG_cons_newline hne7 hnl7 ?_
    by_cases hb : occursG fenceJson (j ++ '\n' :: fence3) = true
    · exfalso
      rcases occursG_newline_split hne7 hnl7 hb with h1 | h1
      · rw [h1] at hj7; cases hj7
      · rw [show occursG fenceJson fence3 = false from by decide] at h1; cases h1
    · exact Bool.eq_false_iff.mpr hb
  rw [removeAll_no_occur hocc7]
  have hocc3 : occursG fence3 ('\n' :: j) = false := occursG_cons_newline hne3 hnl3 h
  rw [show ('\n' :: j ++ '\n' :: fence3) = ('\n' :: j) ++ '\n' :: fence3 from rfl]
  rw [removeAll_newline_block hne3 hnl3 hocc3]
  rw [show removeAll fence3 fence3 = removeAll fence3 ([] : List Char) from by
    conv_lhs => rw [show fence3 = fence3 ++ ([] : List Char) from by simp]
    exact removeAll_head_match hne3]
  rfl

/-- C1: the claim that `clean_json_output` followed by `ensure_dict` maps a
well-formed JSON text, bare or fence-wrapped, to its strict parse is
refuted by a JSON text whose own string payload contains three backticks:
`clean_json_output` deletes them, so the normalizer succeeds but yields a
different structure than strict parsing. -/
theorem C1_counterexample :
    pyParse jC1c = some (J.str ("a```b".toList)) ∧
    ensure_dict (clean_json_output jC1c) = some (J.str ("ab".toList)) ∧
    J.str ("a```b".toList) ≠ J.str ("ab".toList) :=
  ⟨rfl, rfl, fun h => by injection h with h2; exact absurd h2 (by decide)⟩

/-- C1 (amended): for a well-formed JSON text `j` containing no
three-backtick substring, the normalizer (`clean_json_output` then
`ensure_dict`) succeeds on `j` and on `j` wrapped in code-fence markers on
their own lines, and both yield exactly the strict parse of `j`. -/
theorem C1_normalizer_fence_invariant {j : List Char} {v : J}
    (hj : pyParse j = some v) (hf : occursG fence3 j = false) :
    ensure_dict (clean_json_output j) = some v ∧
    ensure_dict (clean_json_output (wrapFence j)) = some v := by
  constructor
  · rw [clean_no_fence hf]
    unfold ensure_dict
    rw [pyParse_pyStrip hj]
  · rw [clean_wrapFence hf]
    unfold ensure_dict
    rw [pyParse_wrapNl hj]

/-- Witness for C1 at `[1, 2]`. -/
theorem C1_witness :
    (pyParse jC1w = some vC1w ∧ occursG fence3 jC1w = false) ∧
    (ensure_dict (clean_json_output jC1w) = some vC1w ∧
      ensure_dict (clean_json_output (wrapFence jC1w)) = some vC1w) :=
  ⟨⟨rfl, rfl⟩, C1_normalizer_fence_invariant rfl rfl⟩

/-- C2: the claim that the fallback of `ensure_dict` removes only a leading
and a trailing code-fence marker is refuted by a text with a line-trailing
marker in the middle: the multiline regex removes it, so the source
succeeds where the spec-modelled ends-only normalizer fails. -/
theorem C2_counterexample :
    ensureDictSpec jC2c = none ∧
    ensure_dict jC2c = some (J.arr [J.num ("1".toList), J.num ("2".toList)]) :=
  ⟨rfl, rfl⟩

/-- C2 (amended): `ensure_dict` returns the strict parse when it succeeds;
otherwise it strips the text, removes one leading three-backtick-`json`
marker and one trailing three-backtick marker on EVERY line (the regex is
multiline-anchored), strips again and retries the strict parse, whose
failure is the overall parse error. -/
theorem C2_ensure_dict_linewise (cs : List Char) :
    (∀ v, pyParse cs = some v → ensure_dict cs = some v) ∧
    (pyParse cs = none →
      ensure_dict cs =
        pyParse (pyStrip (joinNl ((splitNl (pyStrip cs)).map lineClean)))) := by
  constructor
  · intro v h
    unfold ensure_dict
    rw [h]
  · intro h
    unfold ensure_dict
    rw [h, rsubFence_lines]

/-- Witness for C2 at the counterexample input. -/
theorem C2_witness :
    pyParse jC2c = none ∧
    ensure_dict jC2c =
      pyParse (pyStrip (joinNl ((splitNl (pyStrip jC2c)).map lineClean))) :=
  ⟨rfl, (C2_ensure_dict_linewise jC2c).2 rfl⟩

theorem mem_insertByDist {d : PrefEntry → Int} {e x : PrefEntry} :
    ∀ {s : List PrefEntry}, x ∈ insertByDist d e s → x = e ∨ x ∈ s := by
  intro s
  induction s with
  | nil =>
    intro h
    simp [insertByDist] at h
    exact Or.inl h
  | cons a t ih =>
    intro h
    simp only [insertByDist] at h
    by_cases hc : d e < d a
    · rw [if_pos hc] at h
      rcases List.mem_cons.mp h with h1 | h1
      · exact Or.inl h1
      · exact Or.inr h1
    · rw [if_neg hc] at h
      rcases List.mem_cons.mp h with h1 | h1
      · exact Or.inr (h1 ▸ List.mem_cons_self a t)
      · rcases ih h1 with h2 | h2
        · exact Or.inl h2
        · exact Or.inr (List.mem_cons_of_mem a h2)

theorem mem_foldl_insert {d : PrefEntry → Int} {x : PrefEntry} :
    ∀ {l : List PrefEntry} {acc : List PrefEntry},
    x ∈ l.foldl (fun acc e => insertByDist d e acc) acc → x ∈ acc ∨ x ∈ l := by
  intro l
  induction l with
  | nil => intro acc h; exact Or.inl h
  | cons e t ih =>
    intro acc h
    rw [List.foldl_cons] at h
    rcases ih h with h1 | h1
    · rcases mem_insertByDist h1 with h2 | h2
      · exact Or.inr (h2 ▸ List.mem_cons_self e t)
      · exact Or.inl h2
    · exact Or.inr (List.mem_cons_of_mem e h1)

theorem mem_sortByDist {d : PrefEntry → Int} {l : List PrefEntry}
    {x : PrefEntry} (h : x ∈ sortByDist d l) : x ∈ l := by
  rcases mem_foldl_insert h with h1 | h1
  · simp at h1
  · exact h1

theorem sqDist_self : ∀ (v : List Int), sqDist v v = 0 := by
  intro v
  induction v with
  | nil => rfl
  | cons x xs ih => simp [sqDist, ih]

theorem sumSq_nonneg : ∀ (w : List Int), 0 ≤ sumSq w := by
  intro w
  induction w with
  | nil => simp [sumSq]
  | cons y ys ih =>
    simp only [sumSq]
    have := mul_self_nonneg y
    omega

theorem sqDist_nonneg : ∀ (v w : List Int), 0 ≤ sqDist v w := by
  intro v
  induction v with
  | nil => intro w; exact sumSq_nonneg w
  | cons x xs ih =>
    intro w
    cases w with
    | nil =>
      simp only [sqDist]
      have h1 := mul_self_nonneg x
      have h2 := ih []
      omega
    | cons y ys =>
      simp only [sqDist]
      have h1 := mul_self_nonneg (x - y)
      have h2 := ih ys
      omega

theorem insertByDist_eq (d : PrefEntry → Int) (e : PrefEntry) :
    ∀ (s : List PrefEntry),
    insertByDist d e s =
      s.takeWhile (fun x => !decide (d e < d x)) ++
        e :: s.dropWhile (fun x => !decide (d e < d x)) := by
  intro s
  induction s with
  | nil => rfl
  | cons a t ih =>
    simp only [insertByDist, List.takeWhile_cons, List.dropWhile_cons]
    by_cases hc : d e < d a
    · simp [hc]
    · simp [hc, ih]

theorem countP_insertByDist (d : PrefEntry → Int) (e : PrefEntry)
    (p : PrefEntry → Bool) : ∀ (s : List PrefEntry),
    (insertByDist d e s).countP p = (e :: s).countP p := by
  intro s
  induction s with
  | nil => rfl
  | cons a t ih =>
    simp only [insertByDist]
    by_cases hc : d e < d a
    · rw [if_pos hc]
    · rw [if_neg hc]
      simp only [List.countP_cons] at ih ⊢
      omega

theorem countP_foldl_insert {d : PrefEntry → Int} {p : PrefEntry → Bool} :
    ∀ (l acc : List PrefEntry),
    (l.foldl (fun acc e => insertByDist d e acc) acc).countP p =
      acc.countP p + l.countP p := by
  intro l
  induction l with
  | nil => intro acc; simp
  | cons e t ih =>
    intro acc
    rw [List.foldl_cons, ih, countP_insertByDist]
    simp only [List.countP_cons]
    omega

theorem length_takeWhile_le_countP (p : PrefEntry → Bool) :
    ∀ (l : List PrefEntry), (l.takeWhile p).length ≤ l.countP p := by
  intro l
  induction l with
  | nil => simp
  | cons a t ih =>
    rw [List.takeWhile_cons, List.countP_cons]
    by_cases hpa : p a = true
    · simp only [hpa, if_true, List.length_cons]
      omega
    · simp [hpa]

theorem get_user_preferences_eq (embF : List Char → List Int)
    (store : List PrefEntry) (user q : List Char) (k : Nat) :
    get_user_preferences embF store user q k =
      joinSep sepBar (chromaQueryDocs embF store q k user) := rfl

/-- C3: recall never returns a document recorded under a different user:
every document of `chromaQueryDocs` (whose `" | "`-join is what
`get_user_preferences` returns) is the document of a stored entry whose
`user_id` metadata equals the queried user. -/
theorem C3_recall_scoped (embF : List Char → List Int)
    (store : List PrefEntry) (user q d : List Char) (k : Nat)
    (hd : d ∈ chromaQueryDocs embF store q k user) :
    ∃ e, e ∈ store ∧ e.user = user ∧ e.doc = d := by
  unfold chromaQueryDocs at hd
  rcases List.mem_map.mp hd with ⟨e, he, hdoc⟩
  have he3 := mem_sortByDist (List.mem_of_mem_take he)
  rcases List.mem_filter.mp he3 with ⟨hes, heu⟩
  exact ⟨e, hes, by simpa using heu, hdoc⟩

/-- Witness for C3: a two-user store where the returned document is traced
to the matching user. -/
theorem C3_witness :
    ∃ e, e ∈ [eW1, eW2] ∧ e.user = ("u1".toList) ∧ e.doc = ("museums".toList) :=
  C3_recall_scoped embW [eW1, eW2] ("u1".toList) ("q".toList)
    ("museums".toList) 3 (by decide)

/-- C4: the sentinel is unreachable. `results["documents"]` is the always
nonempty outer list (one inner list per query embedding), so the truthiness
test passes even when no entry of the user exists, and recall then returns
the empty join `""` instead of the documented sentinel. -/
theorem C4_sentinel_unreachable (embF : List Char → List Int)
    (store : List PrefEntry) (user q : List Char) (k : Nat)
    (h : store.filter (fun e => e.user == user) = []) :
    get_user_preferences embF store user q k = [] ∧
    get_user_preferences embF store user q k ≠ sentinel := by
  have hq : chromaQueryDocs embF store q k user = [] := by
    unfold chromaQueryDocs
    rw [h]
    simp [sortByDist]
  rw [get_user_preferences_eq, hq]
  exact ⟨rfl, by decide⟩

/-- Witness for C4 at the empty store. -/
theorem C4_witness :
    get_user_preferences embW [] ("u1".toList) ("q".toList) 3 = [] ∧
    get_user_preferences embW [] ("u1".toList) ("q".toList) 3 ≠ sentinel :=
  C4_sentinel_unreachable embW [] ("u1".toList) ("q".toList) 3 rfl

/-- C5: the claim that a repeated identical query appends a second entry is
refuted: the id `f"{user_id}_{hash(query)}"` is the same within a process
run, and `collection.add` skips an existing id, so the second call is a
no-op and the store still holds one entry. -/
theorem C5_counterexample :
    log_user_query embW hashW storeC5 ("u1".toList) ("q1".toList) none = storeC5 ∧
    storeC5.length = 1 :=
  ⟨rfl, rfl⟩

/-- C5 (amended): `log_user_query` never mutates or deletes existing
entries — the prior store is always a prefix of the result; it appends the
new entry when its id `f"{user_id}_{hash(query)}"` is fresh, and is a
no-op when that id already exists (as it does for a repeated identical
query in the same process run). -/
theorem C5_record_append_or_skip (embF : List Char → List Int)
    (hashF : List Char → Int) (store : List PrefEntry)
    (user q : List Char) (so : Option (List Char)) :
    store <+: log_user_query embF hashF store user q so ∧
    (store.any (fun e => e.eid == mkId hashF user q) = true →
      log_user_query embF hashF store user q so = store) ∧
    (store.any (fun e => e.eid == mkId hashF user q) = false →
      log_user_query embF hashF store user q so =
        store ++ [{ eid := mkId hashF user q, emb := embF q, doc := q,
                    user := user, structured_output := mkMeta so }]) := by
  unfold log_user_query
  by_cases h : store.any (fun e => e.eid == mkId hashF user q) = true
  · rw [if_pos h]
    exact ⟨List.prefix_refl store, fun _ => rfl,
      fun hf => by rw [h] at hf; cases hf⟩
  · rw [if_neg h]
    exact ⟨⟨_, rfl⟩, fun ht => absurd ht h, fun _ => rfl⟩

/-- Witness for C5: a fresh record appends one entry to the empty store. -/
theorem C5_witness :
    log_user_query embW hashW [] ("u1".toList) ("q1".toList) none =
      [] ++ [{ eid := mkId hashW ("u1".toList) ("q1".toList),
               emb := embW ("q1".toList), doc := ("q1".toList),
               user := ("u1".toList), structured_output := mkMeta none }] :=
  (C5_record_append_or_skip embW hashW [] ("u1".toList) ("q1".toList) none).2.2 rfl

/-- C8: the claim that record-then-recall always returns the new entry
among the top-k is refuted when k prior entries of the same user tie at
distance zero from the query embedding: the stable nearest-first order
(ties broken by insertion order, modelling the unspecified chroma tie
order) fills all k slots with the older entries. -/
theorem C8_counterexample :
    ("qq".toList) ∉ chromaQueryDocs embW
      (log_user_query embW hashW [eC8] ("u1".toList) ("qq".toList) none)
      ("qq".toList) 1 ("u1".toList) := by
  decide

/-- C8 (amended): record followed by recall with the same user and query
returns the just-recorded document among the top-k results provided the
entry id is fresh and fewer than k prior entries of that user lie at
distance zero (the minimum) from the query embedding. -/
theorem C8_record_recall (embF : List Char → List Int)
    (hashF : List Char → Int) (store : List PrefEntry)
    (user q : List Char) (k : Nat)
    (hfresh : store.any (fun e => e.eid == mkId hashF user q) = false)
    (hties : ((store.filter (fun e => e.user == user)).countP
        (fun x => !decide ((0 : Int) < sqDist x.emb (embF q)))) < k) :
    q ∈ chromaQueryDocs embF (log_user_query embF hashF store user q none)
        q k user := by
  have hlog : log_user_query embF hashF store user q none =
      store ++ [{ eid := mkId hashF user q, emb := embF q, doc := q,
                  user := user, structured_output := mkMeta none }] := by
    unfold log_user_query
    rw [hfresh]
    simp
  unfold chromaQueryDocs
  rw [hlog, List.filter_append]
  have hfsing : List.filter (fun e => e.user == user)
      [({ eid := mkId hashF user q, emb := embF q, doc := q,
          user := user, structured_output := mkMeta none } : PrefEntry)] =
      [{ eid := mkId hashF user q, emb := embF q, doc := q,
         user := user, structured_output := mkMeta none }] := by
    simp
  rw [hfsing]
  unfold sortByDist
  rw [List.foldl_append, List.foldl_cons, List.foldl_nil]
  have hcnt : (List.foldl
      (fun acc e => insertByDist (fun e => sqDist e.emb (embF q)) e acc) []
      (store.filter (fun e => e.user == user))).countP
        (fun x => !decide ((0 : Int) < sqDist x.emb (embF q))) < k := by
    rw [countP_foldl_insert]
    simpa using hties
  generalize hs : List.foldl
      (fun acc e => insertByDist (fun e => sqDist e.emb (embF q)) e acc) []
      (store.filter (fun e => e.user == user)) = s
  rw [hs] at hcnt
  simp only [insertByDist_eq, sqDist_self]
  have hlen : (s.takeWhile
      (fun x => !decide ((0 : Int) < sqDist x.emb (embF q)))).length < k :=
    lt_of_le_of_lt (length_takeWhile_le_countP _ s) hcnt
  rw [List.take_append_eq_append_take]
  rw [List.take_of_length_le (le_of_lt hlen)]
  obtain ⟨m, hm⟩ : ∃ m, k - (s.takeWhile
      (fun x => !decide ((0 : Int) < sqDist x.emb (embF q)))).length = m + 1 :=
    ⟨k - (s.takeWhile
      (fun x => !decide ((0 : Int) < sqDist x.emb (embF q)))).length - 1, by omega⟩
  rw [hm, List.take_succ_cons]
  exact List.mem_map_of_mem _ (List.mem_append_right _ (List.mem_cons_self _ _))

/-- Witness for C8: a fresh record into an empty store is recalled at
k = 1. -/
theorem C8_witness :
    ("qq".toList) ∈ chromaQueryDocs embW
      (log_user_query embW hashW [] ("u1".toList) ("qq".toList) none)
      ("qq".toList) 1 ("u1".toList) :=
  C8_record_recall embW hashW [] ("u1".toList) ("qq".toList) 1 rfl (by decide)

theorem vList_mem {α : Type} {v : J → Option α} :
    ∀ {l : List J} {r : List α}, vList v l = some r →
    ∀ a ∈ r, ∃ j ∈ l, v j = some a := by
  intro l
  induction l with
  | nil =>
    intro r h a ha
    simp [vList] at h
    subst h
    simp at ha
  | cons j t ih =>
    intro r h a ha
    simp only [vList] at h
    rcases hv : v j with _ | b
    · rw [hv] at h; cases h
    · rw [hv] at h
      rcases hvt : vList v t with _ | rt
      · rw [hvt] at h; cases h
      · rw [hvt] at h
        have h3 : (some (b :: rt) : Option (List α)) = some r := h
        injection h3 with h4
        subst h4
        rcases List.mem_cons.mp ha with h5 | h5
        · exact ⟨j, List.mem_cons_self j t, h5 ▸ hv⟩
        · rcases ih hvt a h5 with ⟨j2, hj2, hv2⟩
          exact ⟨j2, List.mem_cons_of_mem j hj2, hv2⟩

theorem vDayPlan_lengths {j : J} {dp : DayPlan} (h : vDayPlan j = some dp) :
    1 ≤ dp.activities.length ∧ 1 ≤ dp.restaurants.length := by
  unfold vDayPlan at h
  repeat' split at h
  all_goals cases h
  all_goals refine ⟨?_, ?_⟩ <;> (dsimp only []; omega)

set_option maxRecDepth 8000 in
/-- C6: the claim that every validated itinerary has exactly the requested
number of day plans (with the matching date range) is refuted: the
validator never sees the requested duration. A one-day itinerary validates
and the pipeline succeeds (renders, not errors) when the requested
duration is three days. -/
theorem C6_counterexample :
    ((pyParse jC6).bind vItinerary).map (fun it => it.day_plans.length) = some 1 ∧
    ((generate_itinerary embW hashW ("PM".toList) ("VM".toList) [] ("u1".toList)
        ("NYC".toList) ("Paris".toList) ("3 days".toList) ("2025-10-01".toList)
        ("museums".toList) jC6).1).take 4 = "### ".toList :=
  ⟨rfl, rfl⟩

/-- C6 (amended): the validator enforces only the schema shape — in every
accepted itinerary each day plan has at least one activity and at least
one restaurant; the day-plan count and date sequence against the requested
duration are not checked anywhere (the documented gap). -/
theorem C6_validator_shape {j : J} {it : Itinerary}
    (h : vItinerary j = some it) :
    ∀ dp ∈ it.day_plans, 1 ≤ dp.activities.length ∧ 1 ≤ dp.restaurants.length := by
  intro dp hdp
  unfold vItinerary at h
  repeat' split at h
  all_goals cases h
  rename_i n dj hh hds
  rcases vList_mem hds dp hdp with ⟨j2, _, hj2⟩
  exact vDayPlan_lengths hj2

/-- Witness for C6 at a concrete accepted itinerary. -/
theorem C6_witness :
    vItinerary jItC6w = some itC6w ∧
    ∀ dp ∈ itC6w.day_plans,
      1 ≤ dp.activities.length ∧ 1 ≤ dp.restaurants.length :=
  ⟨rfl, C6_validator_shape (j := jItC6w) rfl⟩

/-- C7: when the upstream text contains no parseable JSON, the pipeline
returns the fixed error string: prefixed by the warning marker, containing
the word `Error`, with the store untouched (no partial success). -/
theorem C7_prose_error (embF : List Char → List Int) (hashF : List Char → Int)
    (parseMsg valMsg : List Char) (store : List PrefEntry)
    (uid org dst dur sd prefs modelOut : List Char)
    (h : ensure_dict (clean_json_output modelOut) = none) :
    (generate_itinerary embF hashF parseMsg valMsg store
        uid org dst dur sd prefs modelOut).1 = errOut parseMsg ∧
    occursG ("Error".toList) (generate_itinerary embF hashF parseMsg valMsg
        store uid org dst dur sd prefs modelOut).1 = true ∧
    ("⚠️".toList).isPrefixOf (generate_itinerary embF hashF parseMsg valMsg
        store uid org dst dur sd prefs modelOut).1 = true ∧
    (generate_itinerary embF hashF parseMsg valMsg store
        uid org dst dur sd prefs modelOut).2 = store := by
  have hmain : generate_itinerary embF hashF parseMsg valMsg store
      uid org dst dur sd prefs modelOut = (errOut parseMsg, store) := by
    simp only [generate_itinerary]
    rw [h]
  rw [hmain]
  refine ⟨rfl, ?_, ?_, rfl⟩
  · exact occursG_append_left (by decide)
  · exact isPrefixOf_append_mono (by decide)

/-- Witness for C7 on plain prose. -/
theorem C7_witness :
    (generate_itinerary embW hashW ("PM".toList) ("VM".toList) [] ("u1".toList)
        ("O".toList) ("D".toList) ("3 days".toList) ("S".toList) ("P".toList)
        ("no json here".toList)).1 = errOut ("PM".toList) ∧
    occursG ("Error".toList) (generate_itinerary embW hashW ("PM".toList)
        ("VM".toList) [] ("u1".toList) ("O".toList) ("D".toList)
        ("3 days".toList) ("S".toList) ("P".toList)
        ("no json here".toList)).1 = true ∧
    ("⚠️".toList).isPrefixOf (generate_itinerary embW hashW ("PM".toList)
        ("VM".toList) [] ("u1".toList) ("O".toList) ("D".toList)
        ("3 days".toList) ("S".toList) ("P".toList)
        ("no json here".toList)).1 = true ∧
    (generate_itinerary embW hashW ("PM".toList) ("VM".toList) [] ("u1".toList)
        ("O".toList) ("D".toList) ("3 days".toList) ("S".toList) ("P".toList)
        ("no json here".toList)).2 = [] :=
  C7_prose_error embW hashW ("PM".toList) ("VM".toList) [] ("u1".toList)
    ("O".toList) ("D".toList) ("3 days".toList) ("S".toList) ("P".toList)
    ("no json here".toList) rfl

/-- C9: the renderer is a pure function of the validated itinerary value:
equal itinerary values render to byte-identical text — it reads no store,
input field or other ambient state. -/
theorem C9_render_deterministic (i1 i2 : Itinerary) (h : i1 = i2) :
    renderIt i1 = renderIt i2 := by rw [h]

/-- Witness for C9 at a concrete itinerary. -/
theorem C9_witness : renderIt itC6w = renderIt itC6w :=
  C9_render_deterministic itC6w itC6w rfl

/-- C10: an input matching neither the day-count pattern nor the
date-range pattern makes `generate_trip` return the fixed apology string,
and the result does not depend on the model function (the model is never
invoked). -/
theorem C10_unrecognized_fallback (model1 model2 : List Char → List Char)
    (cs : List Char) (h1 : match_trip cs = none) (h2 : match_dates cs = none) :
    generate_trip model1 cs = Except.ok sorryStr ∧
    generate_trip model1 cs = generate_trip model2 cs := by
  have hp : parse_input cs = Except.ok ParseRes.nomatch := by
    unfold parse_input
    rw [h1, h2]
  constructor
  · unfold generate_trip
    rw [hp]
  · unfold generate_trip
    rw [hp]

/-- Witness for C10 on an unrecognized request. -/
theorem C10_witness :
    generate_trip (fun _ => ("A".toList)) ("hello".toList) = Except.ok sorryStr ∧
    generate_trip (fun _ => ("A".toList)) ("hello".toList) =
      generate_trip (fun _ => ("B".toList)) ("hello".toList) :=
  C10_unrecognized_fallback (fun _ => ("A".toList)) (fun _ => ("B".toList))
    ("hello".toList) rfl rfl
